import Mathlib

/-!
Verification of the askama statement-level template grammar
(`src/askama_parser/src/node.rs`).

The Rust code is a nom-based recursive-descent parser.  We embed it
shallowly:

* input is a `List Char`; a parser consumes a prefix and returns the rest;
* nom's three-way result (`Ok` / `Err::Error` (recoverable, try the next
  alternative) / `Err::Failure` (fatal, abort the whole parse)) becomes the
  inductive `Step` below;
* the single piece of mutable parse state — the loop-nesting counter held in
  the Rust `State` (a `Cell<usize>`) — is threaded explicitly: a stateful
  parser (`PM`) maps a counter and an input to the updated counter and a
  `Step`.  `enter_loop` / `leave_loop` become the `forContent` wrapper, and
  `is_in_loop` is a comparison on the threaded counter;
* the mutually recursive node grammar is realised as a fuel-indexed family
  `fam`: generation `n+1` of every parser calls generation `n` for its
  recursive occurrences, and generation `0` fails recoverably.  All
  definitions are structural recursions, so concrete parses reduce by `rfl`.

Lexical primitives (`identifier`, `keyword`, `ws`, `str_lit`, `num_lit`,
`char_lit`, `bool_lit`, `path`, `skip_till`, `split_ws_parts`), the delimiter
configuration and the expression grammar live outside the given source file;
they are modelled from the spec where so marked.
-/

namespace Askama

/-- Whitespace handling directive (`+` preserve, `-` suppress, `~` minimize). -/
inductive Whitespace where
  | Preserve
  | Suppress
  | Minimize
deriving Repr, DecidableEq

/-- A construct's pair of optional trim directives: `a` governs the left
edge (inside the opening delimiter), `b` the right edge (before the closing
delimiter). Mirrors the Rust tuple struct `Ws(Option<Whitespace>, Option<Whitespace>)`. -/
structure Ws where
  a : Option Whitespace
  b : Option Whitespace
deriving Repr, DecidableEq

/-- Destructuring pattern (`Target` in the source). Borrowed string slices
become `List Char`. -/
inductive Target where
  | Name (s : List Char)
  | Tuple (path : List (List Char)) (elems : List Target)
  | Struct (path : List (List Char)) (fields : List (List Char × Target))
  | NumLit (s : List Char)
  | StrLit (s : List Char)
  | CharLit (s : List Char)
  | BoolLit (s : List Char)
  | Path (segs : List (List Char))
deriving Repr

/-- Modelled from the spec: the expression grammar is an out-of-scope external
collaborator ("lexical primitives ... the expression grammar ... are treated as
external collaborators").  We model the minimal fragment the node grammar's
call sites need: a plain variable reference parsed from one identifier. -/
inductive Expr where
  | Var (s : List Char)
deriving Repr, DecidableEq

/-- Condition of an `if`/`else if` branch: optional `let` binding target plus
the boolean expression (`CondTest` in the source). -/
structure CondTest where
  target : Option Target
  expr : Expr
deriving Repr

mutual

/-- One parsed template construct (`Node` in the source).  Constructor names
and field order follow the Rust enum. -/
inductive Node where
  | Lit (lws : List Char) (core : List Char) (rws : List Char)
  | Comment (ws : Ws)
  | ExprNode (ws : Ws) (e : Expr)
  | Call (ws : Ws) (scope : Option (List Char)) (name : List Char) (args : List Expr)
  | LetDecl (ws : Ws) (var : Target)
  | Let (ws : Ws) (var : Target) (val : Expr)
  | Cond (branches : List Cond) (ws : Ws)
  | Match (ws1 : Ws) (scrutinee : Expr) (arms : List When) (ws2 : Ws)
  | Loop (l : Loop)
  | Extends (name : List Char)
  | BlockDef (ws1 : Ws) (name : List Char) (body : List Node) (ws2 : Ws)
  | Include (ws : Ws) (name : List Char)
  | Import (ws : Ws) (name : List Char) (scope : List Char)
  | MacroDef (name : List Char) (m : Macro)
  | Raw (ws1 : Ws) (lws : List Char) (core : List Char) (rws : List Char) (ws2 : Ws)
  | Break (ws : Ws)
  | Continue (ws : Ws)

/-- A `for` construct (`Loop` struct in the source). -/
inductive Loop where
  | mk (ws1 : Ws) (var : Target) (iter : Expr) (cond : Option Expr)
       (body : List Node) (ws2 : Ws) (elseBlock : List Node) (ws3 : Ws)

/-- One `match` arm (`When` struct in the source); the wildcard `else` arm
carries the synthetic target `Name "_"`. -/
inductive When where
  | mk (ws : Ws) (target : Target) (block : List Node)

/-- A macro definition body (`Macro` struct in the source). -/
inductive Macro where
  | mk (ws1 : Ws) (args : List (List Char)) (nodes : List Node) (ws2 : Ws)

/-- One branch of an if/elif/else chain (`Cond` struct in the source);
`cond = none` only for an `else` branch. -/
inductive Cond where
  | mk (ws : Ws) (cond : Option CondTest) (block : List Node)

end

/-- The condition carried by an if/elif/else branch. -/
def Cond.cond : Cond → Option CondTest
  | .mk _ c _ => c

/-- The body of an if/elif/else branch. -/
def Cond.block : Cond → List Node
  | .mk _ _ b => b

/-- The pattern of a match arm. -/
def When.target : When → Target
  | .mk _ t _ => t

/-! ## Parser results and combinators (nom semantics) -/

/-- Result of running a parser: success with the remaining input, a
recoverable error (nom `Err::Error` — the caller tries the next
alternative), or a fatal failure (nom `Err::Failure` — aborts the parse). -/
inductive Step (α : Type) where
  | ok (rest : List Char) (v : α)
  | err
  | fail
deriving Repr, DecidableEq

/-- A stateless parser over the input characters. -/
def P (α : Type) : Type := List Char → Step α

/-- A stateful parser additionally threading the loop-nesting counter of the
parse `State`; the returned counter reflects any mutation, also on error
paths (the Rust counter is a `Cell` that nom does not roll back). -/
def PM (α : Type) : Type := Nat → List Char → Nat × Step α

def P.pure (a : α) : P α := fun i => .ok i a

def P.bind (p : P α) (f : α → P β) : P β := fun i =>
  match p i with
  | .ok r v => f v r
  | .err => .err
  | .fail => .fail

/-- nom `alt` (binary): on a recoverable error try `q` on the original input. -/
def palt (p q : P α) : P α := fun i =>
  match p i with
  | .err => q i
  | r => r

/-- nom `opt`: recoverable error becomes `none` without consuming. -/
def popt (p : P α) : P (Option α) := fun i =>
  match p i with
  | .ok r v => .ok r (some v)
  | .err => .ok i none
  | .fail => .fail

/-- nom `cut`: upgrade a recoverable error to a fatal failure. -/
def pcut (p : P α) : P α := fun i =>
  match p i with
  | .err => .fail
  | r => r

/-- nom `not`. -/
def pnot (p : P α) : P Unit := fun i =>
  match p i with
  | .ok _ _ => .err
  | .err => .ok i ()
  | .fail => .fail

/-- nom `peek`. -/
def ppeek (p : P α) : P α := fun i =>
  match p i with
  | .ok _ v => .ok i v
  | r => r

/-- nom `map`. -/
def pmap (f : α → β) (p : P α) : P β := fun i =>
  match p i with
  | .ok r v => .ok r (f v)
  | .err => .err
  | .fail => .fail

/-- nom `recognize`: return the consumed prefix as the value. -/
def precognize (p : P α) : P (List Char) := fun i =>
  match p i with
  | .ok r _ => .ok r (i.take (i.length - r.length))
  | .err => .err
  | .fail => .fail

/-- nom `consumed`: pair the consumed prefix with the value. -/
def pconsumed (p : P α) : P (List Char × α) := fun i =>
  match p i with
  | .ok r v => .ok r (i.take (i.length - r.length), v)
  | .err => .err
  | .fail => .fail

/-- nom `eof`. -/
def peof : P Unit := fun i =>
  match i with
  | [] => .ok [] ()
  | _ => .err

/-- nom `tag`. -/
def ptag (t : List Char) : P (List Char) := fun i =>
  if t.isPrefixOf i then .ok (i.drop t.length) t else .err

/-- nom `char`. -/
def pchar (c : Char) : P Char := fun i =>
  match i with
  | x :: r => if x = c then .ok r c else .err
  | [] => .err

/-- Continue parsing from an explicitly given position (used where the Rust
code resumes from a position captured inside a parser value, as `raw` does
with the position returned by `skip_till`). -/
def pjump (j : List Char) (p : P α) : P α := fun _ => p j

/-- nom `many0` iteration body, with nom's infinite-loop protection: an inner
success that consumes nothing is an error.  The iteration bound is supplied
by `pmany0`; it can never be the limiting factor because every iteration
consumes at least one character. -/
def pmany0Aux (p : P α) : Nat → List Char → Step (List α)
  | 0, _ => .err
  | n + 1, i =>
    match p i with
    | .err => .ok i []
    | .fail => .fail
    | .ok r v =>
      if r.length = i.length then .err
      else
        match pmany0Aux p n r with
        | .ok r2 vs => .ok r2 (v :: vs)
        | .err => .err
        | .fail => .fail

/-- nom `many0` / `fold_many0` (our folds collect into a list). -/
def pmany0 (p : P α) : P (List α) := fun i => pmany0Aux p (i.length + 1) i

/-- nom `many1`. -/
def pmany1 (p : P α) : P (List α) := fun i =>
  match p i with
  | .err => .err
  | .fail => .fail
  | .ok r v =>
    if r.length = i.length then .err
    else
      match pmany0Aux p (r.length + 1) r with
      | .ok r2 vs => .ok r2 (v :: vs)
      | .err => .err
      | .fail => .fail

/-- nom `separated_list1` loop: after the mandatory first element, repeat
(separator, element); a recoverable error in either stops the loop before
the separator; the separator must consume input. -/
def psepAux (sep : P σ) (p : P α) : Nat → List Char → List α → Step (List α)
  | 0, _, _ => .err
  | n + 1, i, acc =>
    match sep i with
    | .err => .ok i acc
    | .fail => .fail
    | .ok i1 _ =>
      if i1.length = i.length then .err
      else
        match p i1 with
        | .err => .ok i acc
        | .fail => .fail
        | .ok i2 v => psepAux sep p n i2 (acc ++ [v])

/-- nom `separated_list1`. -/
def psepList1 (sep : P σ) (p : P α) : P (List α) := fun i =>
  match p i with
  | .err => .err
  | .fail => .fail
  | .ok r v => psepAux sep p (r.length + 1) r [v]

/-- nom `separated_list0`. -/
def psepList0 (sep : P σ) (p : P α) : P (List α) := fun i =>
  match p i with
  | .err => .ok i []
  | .fail => .fail
  | .ok r v => psepAux sep p (r.length + 1) r [v]

/-- `skip_till end` (modelled from the repository's parser support module,
as described by the spec's literal-text scanner): advance one character at a
time until `end` matches; succeed with the remaining input positioned at the
match, the value holding the position after the match and `end`'s value. -/
def skipTill (p : P α) : List Char → Step (List Char × α)
  | [] =>
    match p [] with
    | .ok j v => .ok [] (j, v)
    | .fail => .fail
    | .err => .err
  | c :: t =>
    match p (c :: t) with
    | .ok j v => .ok (c :: t) (j, v)
    | .fail => .fail
    | .err => skipTill p t

/-- nom `take_until`: scan to the first occurrence of `pat`; the remaining
input starts at the occurrence, the value is the scanned prefix. -/
def takeUntil (pat : List Char) : List Char → Step (List Char)
  | [] => if pat.isPrefixOf [] then .ok [] [] else .err
  | c :: t =>
    if pat.isPrefixOf (c :: t) then .ok (c :: t) []
    else
      match takeUntil pat t with
      | .ok r v => .ok r (c :: v)
      | .err => .err
      | .fail => .fail

/-! ## Stateful combinators -/

def PM.pure (a : α) : PM α := fun lvl i => (lvl, .ok i a)

def PM.bind (p : PM α) (f : α → PM β) : PM β := fun lvl i =>
  match p lvl i with
  | (l, .ok r v) => f v l r
  | (l, .err) => (l, .err)
  | (l, .fail) => (l, .fail)

/-- Lift a stateless parser; it leaves the counter untouched. -/
def plift (p : P α) : PM α := fun lvl i => (lvl, p i)

/-- A stateful parser that always fails recoverably (fuel exhaustion). -/
def pmErr : PM α := fun lvl _ => (lvl, .err)

def pmalt (p q : PM α) : PM α := fun lvl i =>
  match p lvl i with
  | (l, .err) => q l i
  | r => r

def pmopt (p : PM α) : PM (Option α) := fun lvl i =>
  match p lvl i with
  | (l, .ok r v) => (l, .ok r (some v))
  | (l, .err) => (l, .ok i none)
  | (l, .fail) => (l, .fail)

def pmcut (p : PM α) : PM α := fun lvl i =>
  match p lvl i with
  | (l, .err) => (l, .fail)
  | r => r

def pmmany0Aux (p : PM α) : Nat → Nat → List Char → Nat × Step (List α)
  | 0, lvl, _ => (lvl, .err)
  | n + 1, lvl, i =>
    match p lvl i with
    | (l, .err) => (l, .ok i [])
    | (l, .fail) => (l, .fail)
    | (l, .ok r v) =>
      if r.length = i.length then (l, .err)
      else
        match pmmany0Aux p n l r with
        | (l2, .ok r2 vs) => (l2, .ok r2 (v :: vs))
        | (l2, .err) => (l2, .err)
        | (l2, .fail) => (l2, .fail)

def pmmany0 (p : PM α) : PM (List α) := fun lvl i => pmmany0Aux p (i.length + 1) lvl i

def pmmany1 (p : PM α) : PM (List α) := fun lvl i =>
  match p lvl i with
  | (l, .err) => (l, .err)
  | (l, .fail) => (l, .fail)
  | (l, .ok r v) =>
    if r.length = i.length then (l, .err)
    else
      match pmmany0Aux p (r.length + 1) l r with
      | (l2, .ok r2 vs) => (l2, .ok r2 (v :: vs))
      | (l2, .err) => (l2, .err)
      | (l2, .fail) => (l2, .fail)

/-! ## Lexical primitives

Modelled from the spec: "Lexical primitives (external): tokenizes
identifiers, keywords, literals, paths. Pure functions over a text slice,
returning the matched slice and remaining input."  The shapes follow the
spec's grammar surface; ASCII character classes stand in for the Unicode
classes of the original. -/

/-- The whitespace characters skipped by the `ws` combinator. -/
def isWsChar (c : Char) : Bool := c = ' ' || c = '\t' || c = '\r' || c = '\n'

def dropWs (i : List Char) : List Char := i.dropWhile isWsChar

/-- Modelled from the spec: the `ws` combinator of the parser support module
skips horizontal/vertical whitespace on both sides of `p`. -/
def wsP (p : P α) : P α := fun i =>
  match p (dropWs i) with
  | .ok r v => .ok (dropWs r) v
  | .err => .err
  | .fail => .fail

def isIdStart (c : Char) : Bool := c.isAlpha || c = '_'

def isIdCont (c : Char) : Bool := c.isAlphanum || c = '_'

/-- Modelled from the spec: identifiers (start letter/underscore, continue
alphanumeric/underscore). -/
def identifier : P (List Char) := fun i =>
  match i with
  | [] => .err
  | c :: t =>
    if isIdStart c then .ok (t.dropWhile isIdCont) (c :: t.takeWhile isIdCont)
    else .err

/-- Modelled from the spec: `keyword k` matches one identifier and requires
it to equal `k` (so `fortune` does not match the keyword `for`). -/
def keyword (k : List Char) : P (List Char) := fun i =>
  match identifier i with
  | .ok j v => if v = k then .ok j v else .err
  | .err => .err
  | .fail => .fail

/-- Modelled from the spec: string literal `"..."` (escapes not needed by any
claim input). The value is the inner text. -/
def strLit : P (List Char) := fun i =>
  match i with
  | [] => .err
  | c :: t =>
    if c = '"' then
      match t.dropWhile (fun ch => ch ≠ '"') with
      | _ :: r2 => .ok r2 (t.takeWhile (fun ch => ch ≠ '"'))
      | [] => .err
    else .err

/-- Modelled from the spec: character literal `'c'`. -/
def charLit : P (List Char) := fun i =>
  match i with
  | q1 :: c :: q2 :: r => if q1 = '\'' ∧ q2 = '\'' then .ok r [c] else .err
  | _ => .err

/-- Modelled from the spec: numeric literal (optional sign, digits, optional
fraction). -/
def numLit : P (List Char) := fun i =>
  match i with
  | [] => .err
  | c :: t =>
    let j := if c = '-' then t else i
    let neg : List Char := if c = '-' then [c] else []
    let ds := j.takeWhile Char.isDigit
    if ds.isEmpty then .err
    else
      match j.dropWhile Char.isDigit with
      | '.' :: t2 =>
        let ds2 := t2.takeWhile Char.isDigit
        if ds2.isEmpty then .ok ('.' :: t2) (neg ++ ds)
        else .ok (t2.dropWhile Char.isDigit) (neg ++ ds ++ '.' :: ds2)
      | r => .ok r (neg ++ ds)

def kwTrue : List Char := ("true").toList
def kwFalse : List Char := ("false").toList

/-- Modelled from the spec: boolean literal. -/
def boolLit : P (List Char) := palt (keyword kwFalse) (keyword kwTrue)

def sepColons : List Char := ("::").toList

/-- Qualified-path head: `::`-separated identifier sequence with at least two
segments (absolute paths contribute a leading empty segment). -/
def pathFull : P (List (List Char)) :=
  P.bind (popt (wsP (ptag sepColons))) (fun root =>
  P.bind identifier (fun start =>
  P.bind (wsP (ptag sepColons)) (fun _ =>
  P.bind (psepList1 (wsP (ptag sepColons)) identifier) (fun rest =>
  P.pure ((match root with | some _ => [([] : List Char)] | none => []) ++ start :: rest)))))

def headUpper (n : List Char) : Bool :=
  match n with
  | c :: _ => c.isUpper
  | [] => false

/-- Modelled from the spec: `path` — a qualified (`::`-separated) name, or a
single identifier only when it is capitalized (a lone lowercase identifier is
not a path, so it falls through to a bare `Name` pattern). -/
def pathP : P (List (List Char)) := fun i =>
  match pathFull i with
  | .ok r v => .ok r v
  | _ =>
    match identifier i with
    | .ok j name => if headUpper name then .ok j [name] else .err
    | .err => .err
    | .fail => .fail

/-- Modelled from the spec: `split_ws_parts` splits a literal span into
leading-whitespace run / core / trailing-whitespace run and wraps it as a
`Lit` node. -/
def splitWsParts (s : List Char) : Node :=
  let rest := s.dropWhile Char.isWhitespace
  Node.Lit (s.takeWhile Char.isWhitespace)
    ((rest.reverse.dropWhile Char.isWhitespace).reverse)
    ((rest.reverse.takeWhile Char.isWhitespace).reverse)

/-- Trim-marker parser (`Whitespace::parse`): one of `-`, `+`, `~`. -/
def whitespaceP : P Whitespace := fun i =>
  match i with
  | [] => .err
  | c :: r =>
    if c = '-' then .ok r .Suppress
    else if c = '+' then .ok r .Preserve
    else if c = '~' then .ok r .Minimize
    else .err

/-! ## Delimiter configuration -/

/-- Modelled from the spec: the delimiter configuration ("customizable
start/end markers for blocks, expressions, comments") carried by the parse
`State`.  Field names follow the Rust `Syntax` struct. -/
structure Syn where
  blockStart : List Char
  blockEnd : List Char
  exprStart : List Char
  exprEnd : List Char
  commentStart : List Char
  commentEnd : List Char

def dBlockStart : List Char := ("\x7b%").toList
def dBlockEnd : List Char := ("%\x7d").toList
def dExprStart : List Char := ("\x7b\x7b").toList
def dExprEnd : List Char := ("\x7d\x7d").toList
def dCommentStart : List Char := ("\x7b#").toList
def dCommentEnd : List Char := ("#\x7d").toList

/-- The default delimiters (`{% %}`, `{{ }}`, `{# #}`). -/
def defaultSyn : Syn :=
  Syn.mk dBlockStart dBlockEnd dExprStart dExprEnd dCommentStart dCommentEnd

/-! ## Expression parsing (modelled) -/

/-- Modelled from the spec: `Expr::parse`, restricted to the variable form
used by the node grammar's call sites in the claims. -/
def Expr.parse : P Expr := pmap Expr.Var identifier

def chComma : Char := ','
def chLParen : Char := '('
def chRParen : Char := ')'
def chLBrace : Char := '\x7b'
def chRBrace : Char := '\x7d'
def chColon : Char := ':'
def chEq : Char := '='

/-- Modelled from the spec: `Expr::parse_arguments` — a parenthesized
comma-separated expression list. -/
def Expr.parseArguments : P (List Expr) :=
  P.bind (wsP (pchar chLParen)) (fun _ =>
  P.bind (psepList0 (wsP (pchar chComma)) (wsP Expr.parse)) (fun args =>
  P.bind (wsP (pchar chRParen)) (fun _ =>
  P.pure args)))

/-! ## Target (pattern) grammar — `Target::parse` -/

/-- `Target::lit`: literal patterns, tried in source order. -/
def targetLit : P Target :=
  palt (pmap Target.StrLit strLit)
    (palt (pmap Target.CharLit charLit)
      (palt (pmap Target.NumLit numLit) (pmap Target.BoolLit boolLit)))

/-- `map(opt(ws(char c)), |o| o.is_some())`. -/
def poptChar (c : Char) : P Bool := pmap Option.isSome (popt (wsP (pchar c)))

def kwWith : List Char := ("with").toList

/-- `Target::named` (field pattern with shorthand), parameterized by the
recursive target parser. -/
def targetNamed (tp : P Target) : P (List Char × Target) :=
  P.bind identifier (fun src =>
  P.bind (popt (P.bind (wsP (pchar chColon)) (fun _ => tp))) (fun t =>
  P.pure (src, t.getD (Target.Name src))))

/-- The struct/path tail of `Target::parse`: after a path, an optional `with`
keyword, then an unnamed `(...)` or named `{...}` payload; with neither, the
input backtracks to just after the path and the path stands alone. -/
def targetAfterPath (tp : P Target) (path : List (List Char)) : P Target := fun iBefore =>
  (P.bind (popt (wsP (keyword kwWith))) (fun _ =>
   P.bind (poptChar chLParen) (fun isUnnamed =>
   if isUnnamed then
     P.bind
       (palt (pmap (fun _ => ([] : List Target)) (pchar chRParen))
         (P.bind (pcut (psepList1 (wsP (pchar chComma)) tp)) (fun ts =>
          P.bind (popt (wsP (pchar chComma))) (fun _ =>
          P.bind (wsP (pcut (pchar chRParen))) (fun _ =>
          P.pure ts)))))
       (fun ts => P.pure (Target.Tuple path ts))
   else
     P.bind (poptChar chLBrace) (fun isNamed =>
     if isNamed then
       P.bind
         (palt (pmap (fun _ => ([] : List (List Char × Target))) (pchar chRBrace))
           (P.bind (pcut (psepList1 (wsP (pchar chComma)) (targetNamed tp))) (fun ts =>
            P.bind (popt (wsP (pchar chComma))) (fun _ =>
            P.bind (wsP (pcut (pchar chRBrace))) (fun _ =>
            P.pure ts)))))
         (fun ts => P.pure (Target.Struct path ts))
     else
       pjump iBefore (P.pure (Target.Path path)))))) iBefore

/-- `Target::parse`, fuel-indexed for the recursion through parenthesized
groups, tuple elements and struct fields.  Fuel `0` fails recoverably. -/
def Target.parseF : Nat → P Target
  | 0 => fun _ => .err
  | n + 1 =>
    P.bind (popt targetLit) (fun litOpt =>
    match litOpt with
    | some l => P.pure l
    | none =>
      P.bind (poptChar chLParen) (fun isTuple =>
      if isTuple then
        P.bind (poptChar chRParen) (fun isEmpty =>
        if isEmpty then P.pure (Target.Tuple [] [])
        else
          P.bind (Target.parseF n) (fun first =>
          P.bind (poptChar chRParen) (fun unused =>
          if unused then P.pure first
          else
            P.bind
              (pcut (
                P.bind (pmany0 (P.bind (wsP (pchar chComma)) (fun _ => Target.parseF n))) (fun more =>
                P.bind (popt (wsP (pchar chComma))) (fun _ =>
                P.bind (wsP (pcut (pchar chRParen))) (fun _ =>
                P.pure more)))))
              (fun more => P.pure (Target.Tuple [] (first :: more))))))
      else
        P.bind (popt pathP) (fun pathOpt =>
        match pathOpt with
        | some path => targetAfterPath (Target.parseF n) path
        | none => pmap Target.Name identifier)))

/-! ## Statement keywords -/

def kwCall : List Char := ("call").toList
def kwLet : List Char := ("let").toList
def kwSet : List Char := ("set").toList
def kwIf : List Char := ("if").toList
def kwEndif : List Char := ("endif").toList
def kwElse : List Char := ("else").toList
def kwFor : List Char := ("for").toList
def kwIn : List Char := ("in").toList
def kwEndfor : List Char := ("endfor").toList
def kwMatch : List Char := ("match").toList
def kwWhen : List Char := ("when").toList
def kwEndmatch : List Char := ("endmatch").toList
def kwExtends : List Char := ("extends").toList
def kwInclude : List Char := ("include").toList
def kwImport : List Char := ("import").toList
def kwAs : List Char := ("as").toList
def kwBlock : List Char := ("block").toList
def kwEndblock : List Char := ("endblock").toList
def kwMacro : List Char := ("macro").toList
def kwEndmacro : List Char := ("endmacro").toList
def kwSuper : List Char := ("super").toList
def kwRaw : List Char := ("raw").toList
def kwEndraw : List Char := ("endraw").toList
def kwBreak : List Char := ("break").toList
def kwContinue : List Char := ("continue").toList
def wildcardName : List Char := ("_").toList

/-! ## Leaf node parsers (stateless) -/

/-- The alternation of the three configured start markers tried by the
literal-text scanner (`p_start` in `Node::content`). -/
def startMarker (syn : Syn) : P (List Char) :=
  palt (ptag syn.blockStart) (palt (ptag syn.commentStart) (ptag syn.exprStart))

/-- `Node::content`: scan literal text up to the next start marker (or end of
input); fail recoverably on empty input or when a marker sits at offset zero. -/
def Node.content (syn : Syn) : P Node :=
  P.bind (pnot peof) (fun _ =>
  P.bind (popt (precognize (skipTill (startMarker syn)))) (fun contentOpt =>
  fun i =>
    match contentOpt with
    | some [] => .err
    | some cs => .ok i (splitWsParts cs)
    | none => .ok [] (splitWsParts i)))

/-- The comment-body scan of `Node::comment`: repeatedly find the next
comment-end; a comment-start occurring before it opens one nesting level
(`i = &start[2..]` — the marker length 2 is hardcoded in the source); at
positive depth the comment-end closes one level, at depth zero it ends the
body, whose value is the segment scanned since the last nesting step. -/
def commentBodyAux (syn : Syn) : Nat → Nat → List Char → Step (List Char)
  | 0, _, _ => .err
  | fuelN + 1, level, i =>
    match takeUntil syn.commentEnd i with
    | .err => .err
    | .fail => .fail
    | .ok endR tail =>
      match
        (match takeUntil syn.commentStart i with
         | .ok startR _ => if endR.length < startR.length then some startR else none
         | _ => none) with
      | some startR => commentBodyAux syn fuelN (level + 1) (startR.drop 2)
      | none =>
        if 0 < level then commentBodyAux syn fuelN (level - 1) (endR.drop 2)
        else .ok endR tail

/-- Entry to the comment-body scan; every iteration shortens the input by at
least two characters, so `length + 1` rounds always suffice. -/
def commentBody (syn : Syn) : P (List Char) := fun i =>
  commentBodyAux syn (i.length + 1) 0 i

/-- The inferred trailing trim directive of a comment (from the last
character before the closing delimiter: `-`, `+`, `~`). -/
def trailingWsOf (tail : List Char) : Option Whitespace :=
  if tail.getLast? = some '-' then some .Suppress
  else if tail.getLast? = some '+' then some .Preserve
  else if tail.getLast? = some '~' then some .Minimize
  else none

/-- `Node::comment`. -/
def Node.comment (syn : Syn) : P Node :=
  P.bind (ptag syn.commentStart) (fun _ =>
  pcut (
  P.bind (popt whitespaceP) (fun pws =>
  P.bind (commentBody syn) (fun tail =>
  P.bind (ptag syn.commentEnd) (fun _ =>
  P.pure (Node.Comment (Ws.mk pws (trailingWsOf tail))))))))

/-- `Node::expr` — an inline `{{ EXPR }}`. -/
def Node.exprP (syn : Syn) : P Node :=
  P.bind (ptag syn.exprStart) (fun _ =>
  pcut (
  P.bind (popt whitespaceP) (fun pws =>
  P.bind (wsP Expr.parse) (fun e =>
  P.bind (popt whitespaceP) (fun nws =>
  P.bind (ptag syn.exprEnd) (fun _ =>
  P.pure (Node.ExprNode (Ws.mk pws nws) e)))))))

/-- `Node::call`. -/
def Node.callP : P Node :=
  P.bind (popt whitespaceP) (fun pws =>
  P.bind (wsP (keyword kwCall)) (fun _ =>
  pcut (
  P.bind (popt (P.bind (wsP identifier) (fun scope =>
                P.bind (wsP (ptag sepColons)) (fun _ => P.pure scope)))) (fun scope =>
  P.bind (wsP identifier) (fun name =>
  P.bind (popt (wsP Expr.parseArguments)) (fun args =>
  P.bind (popt whitespaceP) (fun nws =>
  P.pure (Node.Call (Ws.mk pws nws) scope name (args.getD [])))))))))

/-- `Node::r#let` (`let`/`set`, with or without initializer). -/
def Node.letP (tf : Nat) : P Node :=
  P.bind (popt whitespaceP) (fun pws =>
  P.bind (wsP (palt (keyword kwLet) (keyword kwSet))) (fun _ =>
  pcut (
  P.bind (wsP (Target.parseF tf)) (fun var =>
  P.bind (popt (P.bind (wsP (pchar chEq)) (fun _ => wsP Expr.parse))) (fun val =>
  P.bind (popt whitespaceP) (fun nws =>
  P.pure
    (match val with
     | some v => Node.Let (Ws.mk pws nws) var v
     | none => Node.LetDecl (Ws.mk pws nws) var)))))))

/-- `Node::extends` (no trim markers, no cut — faithful to the source). -/
def Node.extendsP : P Node :=
  P.bind (wsP (keyword kwExtends)) (fun _ =>
  P.bind (wsP strLit) (fun name =>
  P.pure (Node.Extends name)))

/-- `Node::include`. -/
def Node.includeP : P Node :=
  P.bind (popt whitespaceP) (fun pws =>
  P.bind (wsP (keyword kwInclude)) (fun _ =>
  pcut (
  P.bind (wsP strLit) (fun name =>
  P.bind (popt whitespaceP) (fun nws =>
  P.pure (Node.Include (Ws.mk pws nws) name))))))

/-- `Node::import`. -/
def Node.importP : P Node :=
  P.bind (popt whitespaceP) (fun pws =>
  P.bind (wsP (keyword kwImport)) (fun _ =>
  pcut (
  P.bind (wsP strLit) (fun name =>
  P.bind (wsP (keyword kwAs)) (fun _ =>
  pcut (
  P.bind (wsP identifier) (fun scope =>
  P.bind (popt whitespaceP) (fun nws =>
  P.pure (Node.Import (Ws.mk pws nws) name scope)))))))))

/-- The `endraw` end-tag recognizer of `Node::raw` (the closing `%}` is only
peeked; `Node::parse` consumes it). -/
def endrawP (syn : Syn) : P (Option Whitespace × Option Whitespace) :=
  P.bind (ptag syn.blockStart) (fun _ =>
  P.bind (popt whitespaceP) (fun pws2 =>
  P.bind (wsP (keyword kwEndraw)) (fun _ =>
  P.bind (popt whitespaceP) (fun nws2 =>
  P.bind (ppeek (ptag syn.blockEnd)) (fun _ =>
  P.pure (pws2, nws2))))))

/-- Split raw contents as `split_ws_parts` does and build the `Raw` node
(`unreachable!` branch kept as a dead default). -/
def mkRawNode (pws1 nws1 : Option Whitespace) (contents : List Char)
    (w2 : Option Whitespace × Option Whitespace) : Node :=
  match splitWsParts contents with
  | Node.Lit lws v rws => Node.Raw (Ws.mk pws1 nws1) lws v rws (Ws.mk w2.1 w2.2)
  | _ => Node.Raw (Ws.mk pws1 nws1) [] [] [] (Ws.mk w2.1 w2.2)

/-- `Node::raw`: scan to the first true `endraw` tag, capturing everything
before it verbatim, then resume just after the scanned end tag. -/
def Node.rawP (syn : Syn) : P Node :=
  P.bind (popt whitespaceP) (fun pws1 =>
  P.bind (wsP (keyword kwRaw)) (fun _ =>
  pcut (
  P.bind (popt whitespaceP) (fun nws1 =>
  P.bind (ptag syn.blockEnd) (fun _ =>
  P.bind (pconsumed (skipTill (endrawP syn))) (fun cv =>
  pjump cv.2.1 (P.pure (mkRawNode pws1 nws1 cv.1 cv.2.2))))))))

/-- The header of `Node::r#break` (trim markers around the keyword). -/
def breakHeader : P (Option Whitespace × Option Whitespace) :=
  P.bind (popt whitespaceP) (fun pws =>
  P.bind (wsP (keyword kwBreak)) (fun _ =>
  P.bind (popt whitespaceP) (fun nws =>
  P.pure (pws, nws))))

/-- The header of `Node::r#continue`. -/
def continueHeader : P (Option Whitespace × Option Whitespace) :=
  P.bind (popt whitespaceP) (fun pws =>
  P.bind (wsP (keyword kwContinue)) (fun _ =>
  P.bind (popt whitespaceP) (fun nws =>
  P.pure (pws, nws))))

/-- `Node::r#break`: after the header matches, a loop-nesting counter of zero
is a fatal failure (`Err::Failure`), otherwise a `Break` node. -/
def Node.breakP : PM Node := fun lvl i =>
  match breakHeader i with
  | .ok j w => if 0 < lvl then (lvl, .ok j (Node.Break (Ws.mk w.1 w.2))) else (lvl, .fail)
  | .err => (lvl, .err)
  | .fail => (lvl, .fail)

/-- `Node::r#continue`: same counter check as `break`. -/
def Node.continueP : PM Node := fun lvl i =>
  match continueHeader i with
  | .ok j w => if 0 < lvl then (lvl, .ok j (Node.Continue (Ws.mk w.1 w.2))) else (lvl, .fail)
  | .err => (lvl, .err)
  | .fail => (lvl, .fail)

/-! ## The mutually recursive node grammar

The Rust functions `Node::many`, `Node::parse`, `Node::r#if`, `Node::r#for`,
`Node::r#match`, `Node::block`, `Node::r#macro`, `Cond::parse`,
`When::when` and `When::r#match` are mutually recursive.  `Fam` packages the
two entry points every builder needs; generation `n+1` (`fam`) builds each
parser from generation `n`'s record. -/

structure Fam where
  many : PM (List Node)
  parse : PM Node

/-- `enter_loop`; body parse; `leave_loop` — the loop-body wrapper `content`
inside `Node::r#for`.  The decrement is applied to whatever counter the body
parse returns, on success and on both error paths alike (mirroring the
unconditional `leave_loop` after the body result is captured). -/
def forContent (many : PM (List Node)) : PM (List Node) := fun lvl i =>
  match many (lvl + 1) i with
  | (l, r) => (l - 1, r)

/-- `if GUARD` filter of a `for` header. -/
def ifCondP : P Expr :=
  P.bind (wsP (keyword kwIf)) (fun _ => pcut (wsP Expr.parse))

/-- `CondTest::parse` (optionally `if let PAT = EXPR`). -/
def CondTest.parse (tf : Nat) : P CondTest :=
  P.bind (wsP (keyword kwIf)) (fun _ =>
  pcut (
  P.bind (popt (P.bind (wsP (palt (keyword kwLet) (keyword kwSet))) (fun _ =>
                P.bind (wsP (Target.parseF tf)) (fun t =>
                P.bind (wsP (pchar chEq)) (fun _ =>
                P.pure t))))) (fun target =>
  P.bind (wsP Expr.parse) (fun e =>
  P.pure (CondTest.mk target e)))))

/-- `Cond::parse` — an `else`/`else if` branch. -/
def condB (syn : Syn) (f : Fam) (tf : Nat) : PM Cond :=
  PM.bind (plift (ptag syn.blockStart)) (fun _ =>
  PM.bind (plift (popt whitespaceP)) (fun pws =>
  PM.bind (plift (wsP (keyword kwElse))) (fun _ =>
  pmcut (
  PM.bind (plift (popt (CondTest.parse tf))) (fun cond =>
  PM.bind (plift (popt whitespaceP)) (fun nws =>
  PM.bind (plift (ptag syn.blockEnd)) (fun _ =>
  PM.bind (pmcut f.many) (fun block =>
  PM.pure (Cond.mk (Ws.mk pws nws) cond block)))))))))

/-- `When::when` — a `when PATTERN` match arm. -/
def whenWhenB (syn : Syn) (f : Fam) (tf : Nat) : PM When :=
  PM.bind (plift (ptag syn.blockStart)) (fun _ =>
  PM.bind (plift (popt whitespaceP)) (fun pws =>
  PM.bind (plift (wsP (keyword kwWhen))) (fun _ =>
  pmcut (
  PM.bind (plift (wsP (Target.parseF tf))) (fun target =>
  PM.bind (plift (popt whitespaceP)) (fun nws =>
  PM.bind (plift (ptag syn.blockEnd)) (fun _ =>
  PM.bind (pmcut f.many) (fun block =>
  PM.pure (When.mk (Ws.mk pws nws) target block)))))))))

/-- `When::r#match` — the wildcard `else` match arm (synthetic target `_`). -/
def whenElseB (syn : Syn) (f : Fam) : PM When :=
  PM.bind (plift (ptag syn.blockStart)) (fun _ =>
  PM.bind (plift (popt whitespaceP)) (fun pws =>
  PM.bind (plift (wsP (keyword kwElse))) (fun _ =>
  pmcut (
  PM.bind (plift (popt whitespaceP)) (fun nws =>
  PM.bind (plift (ptag syn.blockEnd)) (fun _ =>
  PM.bind (pmcut f.many) (fun block =>
  PM.pure (When.mk (Ws.mk pws nws) (Target.Name wildcardName) block))))))))

/-- `Node::r#if`. -/
def nodeIf (syn : Syn) (f : Fam) (tf : Nat) : PM Node :=
  PM.bind (plift (popt whitespaceP)) (fun pws1 =>
  PM.bind (plift (CondTest.parse tf)) (fun cond =>
  pmcut (
  PM.bind (plift (popt whitespaceP)) (fun nws1 =>
  PM.bind (plift (ptag syn.blockEnd)) (fun _ =>
  pmcut (
  PM.bind f.many (fun block =>
  PM.bind (pmmany0 (condB syn f tf)) (fun elifs =>
  pmcut (
  PM.bind (plift (ptag syn.blockStart)) (fun _ =>
  PM.bind (plift (popt whitespaceP)) (fun pws2 =>
  PM.bind (plift (wsP (keyword kwEndif))) (fun _ =>
  PM.bind (plift (popt whitespaceP)) (fun nws2 =>
  PM.pure (Node.Cond (Cond.mk (Ws.mk pws1 nws1) (some cond) block :: elifs)
            (Ws.mk pws2 nws2)))))))))))))))

/-- The optional `else` block of a `for` construct (parsed at the unchanged
counter — `break`/`continue` are not enabled inside it). -/
def forElseB (syn : Syn) (f : Fam) : PM (Option Whitespace × List Node × Option Whitespace) :=
  PM.bind (plift (wsP (keyword kwElse))) (fun _ =>
  pmcut (
  PM.bind (plift (popt whitespaceP)) (fun pws =>
  PM.bind (plift (ptag syn.blockEnd)) (fun _ =>
  PM.bind f.many (fun nodes =>
  PM.bind (plift (ptag syn.blockStart)) (fun _ =>
  PM.bind (plift (popt whitespaceP)) (fun nws =>
  PM.pure (pws, nodes, nws))))))))

/-- `Node::r#for`: the body is parsed through `forContent` (counter
incremented), the `else` block is not. -/
def nodeFor (syn : Syn) (f : Fam) (tf : Nat) : PM Node :=
  PM.bind (plift (popt whitespaceP)) (fun pws1 =>
  PM.bind (plift (wsP (keyword kwFor))) (fun _ =>
  pmcut (
  PM.bind (plift (wsP (Target.parseF tf))) (fun var =>
  PM.bind (plift (wsP (keyword kwIn))) (fun _ =>
  pmcut (
  PM.bind (plift (wsP Expr.parse)) (fun iter =>
  PM.bind (plift (popt ifCondP)) (fun cond =>
  PM.bind (plift (popt whitespaceP)) (fun nws1 =>
  PM.bind (plift (ptag syn.blockEnd)) (fun _ =>
  pmcut (
  PM.bind (forContent f.many) (fun body =>
  pmcut (
  PM.bind (plift (ptag syn.blockStart)) (fun _ =>
  PM.bind (plift (popt whitespaceP)) (fun pws2 =>
  PM.bind (pmopt (forElseB syn f)) (fun elseB =>
  PM.bind (plift (wsP (keyword kwEndfor))) (fun _ =>
  PM.bind (plift (popt whitespaceP)) (fun nws2 =>
  PM.pure
    (match elseB.getD (none, [], none) with
     | (nws3, elseNodes, pws3) =>
       Node.Loop (Loop.mk (Ws.mk pws1 nws1) var iter cond body
         (Ws.mk pws2 nws3) elseNodes (Ws.mk pws3 nws2)))))))))))))))))))))

/-- The leading comments skipped by `Node::r#match`
(`ws(many0(ws(value((), comment))))`). -/
def matchComments (syn : Syn) : P (List Unit) :=
  wsP (pmany0 (wsP (pmap (fun _ => ()) (Node.comment syn))))

/-- `Node::r#match`: scrutinee header, skipped comments, one or more `when`
arms, at most one trailing `else` arm (appended last), `endmatch`. -/
def nodeMatch (syn : Syn) (f : Fam) (tf : Nat) : PM Node :=
  PM.bind (plift (popt whitespaceP)) (fun pws1 =>
  PM.bind (plift (wsP (keyword kwMatch))) (fun _ =>
  pmcut (
  PM.bind (plift (wsP Expr.parse)) (fun scrut =>
  PM.bind (plift (popt whitespaceP)) (fun nws1 =>
  PM.bind (plift (ptag syn.blockEnd)) (fun _ =>
  pmcut (
  PM.bind (plift (matchComments syn)) (fun _ =>
  PM.bind (pmmany1 (whenWhenB syn f tf)) (fun arms =>
  pmcut (
  PM.bind (pmopt (whenElseB syn f)) (fun elseArm =>
  pmcut (
  PM.bind (plift (wsP (ptag syn.blockStart))) (fun _ =>
  PM.bind (plift (popt whitespaceP)) (fun pws2 =>
  PM.bind (plift (wsP (keyword kwEndmatch))) (fun _ =>
  PM.bind (plift (popt whitespaceP)) (fun nws2 =>
  PM.pure (Node.Match (Ws.mk pws1 nws1) scrut (arms ++ elseArm.toList)
            (Ws.mk pws2 nws2))))))))))))))))))

/-- `Node::block`: the closing name is optional, and — because the end tag is
parsed with `opt(ws(keyword(name)))` where `name` is the opening name — a
present closing name is only consumed when it equals the opening name. -/
def nodeBlock (syn : Syn) (f : Fam) : PM Node :=
  PM.bind (plift (popt whitespaceP)) (fun pws1 =>
  PM.bind (plift (wsP (keyword kwBlock))) (fun _ =>
  pmcut (
  PM.bind (plift (wsP identifier)) (fun name =>
  PM.bind (plift (popt whitespaceP)) (fun nws1 =>
  PM.bind (plift (ptag syn.blockEnd)) (fun _ =>
  pmcut (
  PM.bind f.many (fun contents =>
  pmcut (
  PM.bind (plift (ptag syn.blockStart)) (fun _ =>
  PM.bind (plift (popt whitespaceP)) (fun pws2 =>
  PM.bind (plift (wsP (keyword kwEndblock))) (fun _ =>
  pmcut (
  PM.bind (plift (popt (wsP (keyword name)))) (fun _ =>
  PM.bind (plift (popt whitespaceP)) (fun nws2 =>
  PM.pure (Node.BlockDef (Ws.mk pws1 nws1) name contents (Ws.mk pws2 nws2)))))))))))))))))

/-- Macro parameter list `(a, b, ...)`. -/
def macroParams : P (List (List Char)) :=
  P.bind (wsP (pchar chLParen)) (fun _ =>
  P.bind (psepList0 (pchar chComma) (wsP identifier)) (fun ps =>
  P.bind (wsP (pchar chRParen)) (fun _ =>
  P.pure ps)))

/-- The `assert_ne!(name, "super")` guard at the end of `Node::r#macro`: the
source panics on a macro named `super`; the panic (which never returns a
node) is modelled as a fatal abort. -/
def assertNotSuper (name : List Char) (nd : Node) : PM Node := fun lvl i =>
  if name = kwSuper then (lvl, .fail) else (lvl, .ok i nd)

/-- `Node::r#macro` (closing name optional, checked against the opening name
the same way as `block`; name `super` rejected by the trailing assertion). -/
def nodeMacro (syn : Syn) (f : Fam) : PM Node :=
  PM.bind (plift (popt whitespaceP)) (fun pws1 =>
  PM.bind (plift (wsP (keyword kwMacro))) (fun _ =>
  pmcut (
  PM.bind (plift (wsP identifier)) (fun name =>
  PM.bind (plift (popt (wsP macroParams))) (fun params =>
  PM.bind (plift (popt whitespaceP)) (fun nws1 =>
  PM.bind (plift (ptag syn.blockEnd)) (fun _ =>
  pmcut (
  PM.bind f.many (fun contents =>
  pmcut (
  PM.bind (plift (ptag syn.blockStart)) (fun _ =>
  PM.bind (plift (popt whitespaceP)) (fun pws2 =>
  PM.bind (plift (wsP (keyword kwEndmacro))) (fun _ =>
  pmcut (
  PM.bind (plift (popt (wsP (keyword name)))) (fun _ =>
  PM.bind (plift (popt whitespaceP)) (fun nws2 =>
  assertNotSuper name
    (Node.MacroDef name
      (Macro.mk (Ws.mk pws1 nws1) (params.getD []) contents (Ws.mk pws2 nws2)))))))))))))))))))

/-- `Node::parse`: open-tag marker, the named constructs tried in the fixed
source order, then a mandatory (cut) close-tag marker. -/
def nodeParse (syn : Syn) (f : Fam) (tf : Nat) : PM Node :=
  PM.bind (plift (ptag syn.blockStart)) (fun _ =>
  PM.bind
    (pmalt (plift Node.callP)
    (pmalt (plift (Node.letP tf))
    (pmalt (nodeIf syn f tf)
    (pmalt (nodeFor syn f tf)
    (pmalt (nodeMatch syn f tf)
    (pmalt (plift Node.extendsP)
    (pmalt (plift Node.includeP)
    (pmalt (plift Node.importP)
    (pmalt (nodeBlock syn f)
    (pmalt (nodeMacro syn f)
    (pmalt (plift (Node.rawP syn))
    (pmalt Node.breakP Node.continueP)))))))))))) (fun contents =>
  PM.bind (pmcut (plift (ptag syn.blockEnd))) (fun _ =>
  PM.pure contents)))

/-- `Node::many`: zero or more of literal text / comment / inline expression
/ tagged statement, in that priority order. -/
def nodeMany (syn : Syn) (f : Fam) : PM (List Node) :=
  pmmany0
    (pmalt (plift (Node.content syn))
    (pmalt (plift (Node.comment syn))
    (pmalt (plift (Node.exprP syn)) f.parse)))

/-- Fuel generation 0: everything fails recoverably. -/
def famBot : Fam := Fam.mk pmErr pmErr

/-- The fuel-indexed family of the mutually recursive grammar.  Generation
`n+1` parses one more level of construct nesting than generation `n`; with
fuel at least the construct-nesting depth of the input, the result is that
of the Rust recursion.  The target-pattern fuel is tied to the same index. -/
def fam (syn : Syn) : Nat → Fam
  | 0 => famBot
  | n + 1 => Fam.mk (nodeMany syn (fam syn n)) (nodeParse syn (fam syn n) n)

/-- Modelled from the spec: the top-level template parse — "a template is
parsed as an ordered sequence of Nodes by repeatedly trying ... until input
is exhausted"; leftover input after the node sequence is a (fatal) parse
error.  The loop-nesting counter starts at zero. -/
def parseTemplate (syn : Syn) (fuel : Nat) (i : List Char) : Step (List Node) :=
  match (fam syn fuel).many 0 i with
  | (_, .ok r v) => if r.isEmpty then .ok [] v else .fail
  | (_, .err) => .err
  | (_, .fail) => .fail

/-! ## Notions used by the theorems -/

/-- `pat` occurs as a contiguous substring of `s`. -/
def hasSub (pat : List Char) : List Char → Bool
  | [] => pat.isPrefixOf []
  | s@(_ :: t) => pat.isPrefixOf s || hasSub pat t

/-- Characters that are inert for the comment grammar: no delimiter
characters and no trim-marker characters. -/
def commentSafe (c : Char) : Bool := c.isAlphanum || c = ' '

/-- A stateful parser preserves the loop-nesting counter: the counter it
hands back equals the one it received, on success and on both error kinds. -/
def Preserves (p : PM α) : Prop := ∀ lvl i, (p lvl i).1 = lvl

/-! ## Concrete claim inputs -/

def tmplMatchBadOrder : List Char :=
  ("\x7b% match x %\x7d\x7b% when a %\x7dA\x7b% when b %\x7dB\x7b% else %\x7dE\x7b% when c %\x7dC\x7b% endmatch %\x7d").toList

def inpMatchGood : List Char :=
  (" match x %\x7d\x7b% when a %\x7dA\x7b% when b %\x7dB\x7b% else %\x7dE\x7b% endmatch %\x7d").toList

def tmplBlockOk : List Char := ("\x7b% block b %\x7dx\x7b% endblock b %\x7d").toList
def tmplBlockNoName : List Char := ("\x7b% block b %\x7dx\x7b% endblock %\x7d").toList
def tmplBlockMismatch : List Char := ("\x7b% block b %\x7dx\x7b% endblock other %\x7d").toList

def tmplForBreak : List Char := ("\x7b% for x in y %\x7d\x7b% break %\x7d\x7b% endfor %\x7d").toList
def tmplForElseBreak : List Char :=
  ("\x7b% for x in y %\x7d\x7b% else %\x7d\x7b% break %\x7d\x7b% endfor %\x7d").toList
def tmplBareBreak : List Char := ("\x7b% break %\x7d").toList
def tmplForContinue : List Char := ("\x7b% for x in y %\x7d\x7b% continue %\x7d\x7b% endfor %\x7d").toList
def tmplBareContinue : List Char := ("\x7b% continue %\x7d").toList

def tmplRawIf : List Char := ("\x7b% raw %\x7d\x7b% if x %\x7d\x7b% endraw %\x7d").toList
def rawIfCore : List Char := ("\x7b% if x %\x7d").toList

/-- The input a raw construct hands to `Node::raw` after the opening `{%`:
the header up to and including the block-end delimiter. -/
def rawHeadInp : List Char := (" raw %\x7d").toList

/-- The part of a canonical `{% endraw %}` end tag consumed by the `endraw`
recognizer (the closing `%\x7d` is only peeked and stays in the input). -/
def eTagCore : List Char := ("\x7b% endraw ").toList

def tmplIfElseElseif : List Char :=
  ("\x7b% if a %\x7dA\x7b% else %\x7dB\x7b% else if c %\x7dC\x7b% endif %\x7d").toList

def inpIfGood : List Char := (" if x %\x7dA\x7b% endif %\x7d").toList

def tmplMacroSuper : List Char := ("\x7b% macro super() %\x7dx\x7b% endmacro %\x7d").toList

def inpMacroGood : List Char := (" macro m() %\x7dx\x7b% endmacro %\x7d").toList

/-- The parse of a simple loop body containing `break` (used to show the tag
is accepted exactly inside a `for` body). -/
def expForBreak : Node :=
  Node.Loop (Loop.mk (Ws.mk none none) (Target.Name (("x").toList)) (Expr.Var (("y").toList))
    none [Node.Break (Ws.mk none none)] (Ws.mk none none) [] (Ws.mk none none))

def expForContinue : Node :=
  Node.Loop (Loop.mk (Ws.mk none none) (Target.Name (("x").toList)) (Expr.Var (("y").toList))
    none [Node.Continue (Ws.mk none none)] (Ws.mk none none) [] (Ws.mk none none))

/-- The claimed if/elif/else shape invariant: a branch without a condition
occurs only as the final element of the branch list. -/
def elseOnlyFinal (bs : List Cond) : Prop :=
  ∀ (k : Nat) (hk : k < bs.length), (bs.get ⟨k, hk⟩).cond = none → k + 1 = bs.length

/-! ## Helper lemmas: inverting successful stateful parses -/

theorem bind_ok {α β : Type} {p : PM α} {f : α → PM β} {lvl l : Nat} {i r : List Char} {v : β}
    (h : PM.bind p f lvl i = (l, .ok r v)) :
    ∃ l1 r1 a, p lvl i = (l1, .ok r1 a) ∧ f a l1 r1 = (l, .ok r v) := by
  unfold PM.bind at h
  rcases hpi : p lvl i with ⟨l1, s⟩
  rw [hpi] at h
  cases s with
  | ok r1 a => exact ⟨l1, r1, a, rfl, h⟩
  | err => injection h with h1 h2; exact absurd h2 (by simp)
  | fail => injection h with h1 h2; exact absurd h2 (by simp)

theorem pmcut_ok {α : Type} {p : PM α} {lvl l : Nat} {i r : List Char} {v : α}
    (h : pmcut p lvl i = (l, .ok r v)) : p lvl i = (l, .ok r v) := by
  unfold pmcut at h
  rcases hpi : p lvl i with ⟨l1, s⟩
  rw [hpi] at h
  cases s with
  | ok r1 a => exact h
  | err => injection h with h1 h2; exact absurd h2 (by simp)
  | fail => injection h with h1 h2; exact absurd h2 (by simp)

theorem plift_ok {α : Type} {p : P α} {lvl l : Nat} {i r : List Char} {v : α}
    (h : plift p lvl i = (l, .ok r v)) : l = lvl ∧ p i = .ok r v := by
  unfold plift at h
  injection h with h1 h2
  exact ⟨h1.symm, h2⟩

theorem pmpure_ok {α : Type} {a : α} {lvl l : Nat} {i r : List Char} {v : α}
    (h : PM.pure a lvl i = (l, .ok r v)) : l = lvl ∧ r = i ∧ v = a := by
  unfold PM.pure at h
  injection h with h1 h2
  injection h2 with h3 h4
  exact ⟨h1.symm, h3.symm, h4.symm⟩

theorem assertNotSuper_ok {name : List Char} {nd : Node} {lvl l : Nat} {i r : List Char} {v : Node}
    (h : assertNotSuper name nd lvl i = (l, .ok r v)) :
    name ≠ kwSuper ∧ v = nd := by
  unfold assertNotSuper at h
  by_cases hs : name = kwSuper
  · rw [if_pos hs] at h; injection h with h1 h2; exact absurd h2 (by simp)
  · rw [if_neg hs] at h; injection h with h1 h2; injection h2 with h3 h4
    exact ⟨hs, h4.symm⟩

/-! ## Helper lemmas: the loop counter is preserved by every parser -/

theorem preserves_plift {α : Type} (p : P α) : Preserves (plift p) := fun _ _ => rfl

theorem preserves_pure {α : Type} (a : α) : Preserves (PM.pure a) := fun _ _ => rfl

theorem preserves_pmErr {α : Type} : Preserves (pmErr : PM α) := fun _ _ => rfl

theorem preserves_bind {α β : Type} {p : PM α} {f : α → PM β}
    (hp : Preserves p) (hf : ∀ a, Preserves (f a)) : Preserves (PM.bind p f) := by
  intro lvl i
  have h := hp lvl i
  unfold PM.bind
  rcases hpi : p lvl i with ⟨l, s⟩
  rw [hpi] at h
  cases s with
  | ok r v => exact (hf v l r).trans h
  | err => exact h
  | fail => exact h

theorem preserves_pmalt {α : Type} {p q : PM α}
    (hp : Preserves p) (hq : Preserves q) : Preserves (pmalt p q) := by
  intro lvl i
  have h := hp lvl i
  unfold pmalt
  rcases hpi : p lvl i with ⟨l, s⟩
  rw [hpi] at h
  cases s with
  | ok r v => exact h
  | err => exact (hq l i).trans h
  | fail => exact h

theorem preserves_pmopt {α : Type} {p : PM α} (hp : Preserves p) : Preserves (pmopt p) := by
  intro lvl i
  have h := hp lvl i
  unfold pmopt
  rcases hpi : p lvl i with ⟨l, s⟩
  rw [hpi] at h
  cases s with
  | ok r v => exact h
  | err => exact h
  | fail => exact h

theorem preserves_pmcut {α : Type} {p : PM α} (hp : Preserves p) : Preserves (pmcut p) := by
  intro lvl i
  have h := hp lvl i
  unfold pmcut
  rcases hpi : p lvl i with ⟨l, s⟩
  rw [hpi] at h
  cases s with
  | ok r v => exact h
  | err => exact h
  | fail => exact h

theorem preserves_pmmany0Aux {α : Type} {p : PM α} (hp : Preserves p) :
    ∀ n, Preserves (pmmany0Aux p n) := by
  intro n
  induction n with
  | zero => intro lvl i; rfl
  | succ n ih =>
    intro lvl i
    have h := hp lvl i
    unfold pmmany0Aux
    rcases hpi : p lvl i with ⟨l, s⟩
    rw [hpi] at h
    cases s with
    | err => exact h
    | fail => exact h
    | ok r v =>
      dsimp only
      by_cases hl : r.length = i.length
      · rw [if_pos hl]; exact h
      · rw [if_neg hl]
        have h2 := ih l r
        rcases hrec : pmmany0Aux p n l r with ⟨l2, s2⟩
        rw [hrec] at h2
        cases s2 with
        | ok r2 vs => exact h2.trans h
        | err => exact h2.trans h
        | fail => exact h2.trans h

theorem preserves_pmmany0 {α : Type} {p : PM α} (hp : Preserves p) : Preserves (pmmany0 p) := by
  intro lvl i
  exact preserves_pmmany0Aux hp (i.length + 1) lvl i

theorem preserves_pmmany1 {α : Type} {p : PM α} (hp : Preserves p) : Preserves (pmmany1 p) := by
  intro lvl i
  have h := hp lvl i
  unfold pmmany1
  rcases hpi : p lvl i with ⟨l, s⟩
  rw [hpi] at h
  cases s with
  | err => exact h
  | fail => exact h
  | ok r v =>
    dsimp only
    by_cases hl : r.length = i.length
    · rw [if_pos hl]; exact h
    · rw [if_neg hl]
      have h2 := preserves_pmmany0Aux hp (r.length + 1) l r
      rcases hrec : pmmany0Aux p (r.length + 1) l r with ⟨l2, s2⟩
      rw [hrec] at h2
      cases s2 with
      | ok r2 vs => exact h2.trans h
      | err => exact h2.trans h
      | fail => exact h2.trans h

theorem preserves_forContent {m : PM (List Node)} (hm : Preserves m) :
    Preserves (forContent m) := by
  intro lvl i
  have h := hm (lvl + 1) i
  unfold forContent
  rcases hmi : m (lvl + 1) i with ⟨l, s⟩
  rw [hmi] at h
  cases s with
  | ok r v => simp only at h; simp [h]
  | err => simp only at h; simp [h]
  | fail => simp only at h; simp [h]

theorem preserves_breakP : Preserves Node.breakP := by
  intro lvl i
  unfold Node.breakP
  cases breakHeader i with
  | ok j w =>
    dsimp only
    by_cases hl : 0 < lvl
    · rw [if_pos hl]
    · rw [if_neg hl]
  | err => rfl
  | fail => rfl

theorem preserves_continueP : Preserves Node.continueP := by
  intro lvl i
  unfold Node.continueP
  cases continueHeader i with
  | ok j w =>
    dsimp only
    by_cases hl : 0 < lvl
    · rw [if_pos hl]
    · rw [if_neg hl]
  | err => rfl
  | fail => rfl

theorem preserves_assertNotSuper (name : List Char) (nd : Node) :
    Preserves (assertNotSuper name nd) := by
  intro lvl i
  unfold assertNotSuper
  by_cases hs : name = kwSuper
  · rw [if_pos hs]
  · rw [if_neg hs]

theorem preserves_condB (syn : Syn) (f : Fam) (tf : Nat) (hm : Preserves f.many) :
    Preserves (condB syn f tf) := by
  unfold condB
  repeat' first
    | exact preserves_plift _
    | exact preserves_pure _
    | exact hm
    | apply preserves_pmcut
    | apply preserves_bind
    | intro _

theorem preserves_whenWhenB (syn : Syn) (f : Fam) (tf : Nat) (hm : Preserves f.many) :
    Preserves (whenWhenB syn f tf) := by
  unfold whenWhenB
  repeat' first
    | exact preserves_plift _
    | exact preserves_pure _
    | exact hm
    | apply preserves_pmcut
    | apply preserves_bind
    | intro _

theorem preserves_whenElseB (syn : Syn) (f : Fam) (hm : Preserves f.many) :
    Preserves (whenElseB syn f) := by
  unfold whenElseB
  repeat' first
    | exact preserves_plift _
    | exact preserves_pure _
    | exact hm
    | apply preserves_pmcut
    | apply preserves_bind
    | intro _

theorem preserves_nodeIf (syn : Syn) (f : Fam) (tf : Nat) (hm : Preserves f.many) :
    Preserves (nodeIf syn f tf) := by
  unfold nodeIf
  repeat' first
    | exact preserves_plift _
    | exact preserves_pure _
    | exact hm
    | exact preserves_pmmany0 (preserves_condB syn f tf hm)
    | apply preserves_pmcut
    | apply preserves_bind
    | intro _

theorem preserves_forElseB (syn : Syn) (f : Fam) (hm : Preserves f.many) :
    Preserves (forElseB syn f) := by
  unfold forElseB
  repeat' first
    | exact preserves_plift _
    | exact preserves_pure _
    | exact hm
    | apply preserves_pmcut
    | apply preserves_bind
    | intro _

theorem preserves_nodeFor (syn : Syn) (f : Fam) (tf : Nat) (hm : Preserves f.many) :
    Preserves (nodeFor syn f tf) := by
  unfold nodeFor
  repeat' first
    | exact preserves_plift _
    | exact preserves_pure _
    | exact preserves_forContent hm
    | exact preserves_pmopt (preserves_forElseB syn f hm)
    | apply preserves_pmcut
    | apply preserves_bind
    | intro _

theorem preserves_nodeMatch (syn : Syn) (f : Fam) (tf : Nat) (hm : Preserves f.many) :
    Preserves (nodeMatch syn f tf) := by
  unfold nodeMatch
  repeat' first
    | exact preserves_plift _
    | exact preserves_pure _
    | exact preserves_pmmany1 (preserves_whenWhenB syn f tf hm)
    | exact preserves_pmopt (preserves_whenElseB syn f hm)
    | apply preserves_pmcut
    | apply preserves_bind
    | intro _

theorem preserves_nodeBlock (syn : Syn) (f : Fam) (hm : Preserves f.many) :
    Preserves (nodeBlock syn f) := by
  unfold nodeBlock
  repeat' first
    | exact preserves_plift _
    | exact preserves_pure _
    | exact hm
    | apply preserves_pmcut
    | apply preserves_bind
    | intro _

theorem preserves_nodeMacro (syn : Syn) (f : Fam) (hm : Preserves f.many) :
    Preserves (nodeMacro syn f) := by
  unfold nodeMacro
  repeat' first
    | exact preserves_plift _
    | exact preserves_pure _
    | exact hm
    | exact preserves_assertNotSuper _ _
    | apply preserves_pmcut
    | apply preserves_bind
    | intro _

theorem preserves_nodeParse (syn : Syn) (f : Fam) (tf : Nat) (hm : Preserves f.many) :
    Preserves (nodeParse syn f tf) := by
  unfold nodeParse
  repeat' first
    | exact preserves_plift _
    | exact preserves_pure _
    | exact preserves_nodeIf syn f tf hm
    | exact preserves_nodeFor syn f tf hm
    | exact preserves_nodeMatch syn f tf hm
    | exact preserves_nodeBlock syn f hm
    | exact preserves_nodeMacro syn f hm
    | exact preserves_breakP
    | exact preserves_continueP
    | apply preserves_pmalt
    | apply preserves_pmcut
    | apply preserves_bind
    | intro _

theorem preserves_nodeMany (syn : Syn) (f : Fam) (hp : Preserves f.parse) :
    Preserves (nodeMany syn f) := by
  unfold nodeMany
  apply preserves_pmmany0
  repeat' first
    | exact preserves_plift _
    | exact hp
    | apply preserves_pmalt

theorem famPreserves (syn : Syn) :
    ∀ n, Preserves (fam syn n).many ∧ Preserves (fam syn n).parse := by
  intro n
  induction n with
  | zero => exact ⟨preserves_pmErr, preserves_pmErr⟩
  | succ n ih =>
    refine ⟨?_, ?_⟩
    · exact preserves_nodeMany syn (fam syn n) ih.2
    · exact preserves_nodeParse syn (fam syn n) n ih.1

/-! ## Claim C5 -/

/-- C5: parenthesized target groups — `()` parses to the empty tuple pattern
`Tuple([], [])`; `(x)` (no trailing comma) collapses to the inner pattern
`Name "x"`, not a one-element tuple; `(x,)` parses to the one-element tuple
containing `Name "x"`. -/
theorem c5_paren_target_patterns :
    Target.parseF 5 (("()").toList) = .ok [] (Target.Tuple [] []) ∧
    Target.parseF 5 (("(x)").toList) = .ok [] (Target.Name (("x").toList)) ∧
    Target.parseF 5 (("(x,)").toList) = .ok [] (Target.Tuple [] [Target.Name (("x").toList)]) :=
  ⟨rfl, rfl, rfl⟩

/-! ## Claim C2 (corrected) -/

/-- C2 counterexample: the claim asserts `{% block b %} … {% endblock other %}`
parses successfully; on the code it is a fatal parse failure (the closing
name, when present, is matched with `keyword(name)` against the opening
name, so `other` is not consumed and the mandatory `%}` is not found). -/
theorem c2_counterexample : parseTemplate defaultSyn 12 tmplBlockMismatch = .fail := rfl

/-- C2 (amended): the closing name of a block is optional — `{% endblock %}`
parses —, and a present closing name is accepted when it equals the opening
name (`{% endblock b %}`); both produce the `BlockDef` named `b`.  (A
differing closing name is rejected, see the counterexample.) -/
theorem c2_endblock_name_optional_but_checked :
    parseTemplate defaultSyn 12 tmplBlockOk =
      .ok [] [Node.BlockDef (Ws.mk none none) (("b").toList)
        [Node.Lit [] (("x").toList) []] (Ws.mk none none)] ∧
    parseTemplate defaultSyn 12 tmplBlockNoName =
      .ok [] [Node.BlockDef (Ws.mk none none) (("b").toList)
        [Node.Lit [] (("x").toList) []] (Ws.mk none none)] :=
  ⟨rfl, rfl⟩

/-! ## Claim C3 -/

/-- C3: `{% break %}` / `{% continue %}` parse successfully exactly when the
loop-nesting counter is positive — inside a `for` body the counter is
incremented, inside a `for`'s `else` body and at top level it is not — and
with a zero counter the recognized tag is a fatal (`Failure`) error, not a
recoverable one.  Shown on whole templates (body / `else` body / top level)
and for the break/continue parsers at every counter value. -/
theorem c3_break_continue_loop_gate :
    parseTemplate defaultSyn 12 tmplForBreak = .ok [] [expForBreak] ∧
    parseTemplate defaultSyn 12 tmplForElseBreak = .fail ∧
    parseTemplate defaultSyn 12 tmplBareBreak = .fail ∧
    parseTemplate defaultSyn 12 tmplForContinue = .ok [] [expForContinue] ∧
    parseTemplate defaultSyn 12 tmplBareContinue = .fail ∧
    (∀ (lvl : Nat) (i j : List Char) (w : Option Whitespace × Option Whitespace),
      breakHeader i = .ok j w →
      (0 < lvl → Node.breakP lvl i = (lvl, .ok j (Node.Break (Ws.mk w.1 w.2)))) ∧
      (lvl = 0 → Node.breakP lvl i = (lvl, .fail))) ∧
    (∀ (lvl : Nat) (i j : List Char) (w : Option Whitespace × Option Whitespace),
      continueHeader i = .ok j w →
      (0 < lvl → Node.continueP lvl i = (lvl, .ok j (Node.Continue (Ws.mk w.1 w.2)))) ∧
      (lvl = 0 → Node.continueP lvl i = (lvl, .fail))) := by
  refine ⟨rfl, rfl, rfl, rfl, rfl, ?_, ?_⟩
  · intro lvl i j w h
    constructor
    · intro hl
      unfold Node.breakP
      rw [h]
      dsimp only
      rw [if_pos hl]
    · intro h0
      unfold Node.breakP
      rw [h]
      dsimp only
      rw [if_neg (by omega)]
  · intro lvl i j w h
    constructor
    · intro hl
      unfold Node.continueP
      rw [h]
      dsimp only
      rw [if_pos hl]
    · intro h0
      unfold Node.continueP
      rw [h]
      dsimp only
      rw [if_neg (by omega)]

/-- C3 witness: the break parser at counter 1 on the tag body `break`
succeeds, by the theorem applied at that concrete input. -/
theorem c3_break_continue_loop_gate_witness :
    Node.breakP 1 ((" break ").toList) = (1, .ok [] (Node.Break (Ws.mk none none))) :=
  (c3_break_continue_loop_gate.2.2.2.2.2.1 1 ((" break ").toList) [] (none, none) rfl).1
    (by omega)

/-! ## Claim C4 -/

/-- C4: the loop-nesting counter's enter/leave operations around a `for`
body are exactly paired: the body wrapper `forContent` returns the counter
it received on every exit path (success, recoverable error, fatal error),
as does the whole `for` parser and the node-sequence parser — so a sibling
construct parsed afterwards observes the pre-`for` counter value. -/
theorem c4_loop_counter_restored (syn : Syn) (fuel tf lvl : Nat) (i : List Char) :
    (forContent (fam syn fuel).many lvl i).1 = lvl ∧
    (nodeFor syn (fam syn fuel) tf lvl i).1 = lvl ∧
    ((fam syn fuel).many lvl i).1 = lvl := by
  have hm := (famPreserves syn fuel).1
  exact ⟨preserves_forContent hm lvl i, preserves_nodeFor syn _ tf hm lvl i, hm lvl i⟩

/-! ## Claim C9 (corrected) -/

/-- C9 counterexample: the claim asserts a branch without a condition occurs
only as the final element; but `{% if a %}A{% else %}B{% else if c %}C{% endif %}`
parses successfully with the condition-less branch in the middle (a further
`else if` branch follows it). -/
theorem c9_counterexample :
    parseTemplate defaultSyn 12 tmplIfElseElseif =
      .ok [] [Node.Cond
        [Cond.mk (Ws.mk none none)
           (some (CondTest.mk none (Expr.Var (("a").toList)))) [Node.Lit [] (("A").toList) []],
         Cond.mk (Ws.mk none none) none [Node.Lit [] (("B").toList) []],
         Cond.mk (Ws.mk none none)
           (some (CondTest.mk none (Expr.Var (("c").toList)))) [Node.Lit [] (("C").toList) []]]
        (Ws.mk none none)] ∧
    ¬ elseOnlyFinal
        [Cond.mk (Ws.mk none none)
           (some (CondTest.mk none (Expr.Var (("a").toList)))) [Node.Lit [] (("A").toList) []],
         Cond.mk (Ws.mk none none) none [Node.Lit [] (("B").toList) []],
         Cond.mk (Ws.mk none none)
           (some (CondTest.mk none (Expr.Var (("c").toList)))) [Node.Lit [] (("C").toList) []]] := by
  refine ⟨rfl, fun hof => ?_⟩
  have h := hof 1 (by norm_num) rfl
  simp at h

/-- C9 (amended): for every successfully parsed if/elif/else construct the
branch list is non-empty and its first branch always carries a condition.
(The claim's further clause — a condition-less branch occurs only as the
final element — does not hold on the code: `else` may be followed by
further `else if` branches; see the counterexample.) -/
theorem c9_first_branch_conditioned (syn : Syn) (f : Fam) (tf lvl l : Nat)
    (i r : List Char) (v : Node)
    (h : nodeIf syn f tf lvl i = (l, .ok r v)) :
    ∃ b bs ws, v = Node.Cond (b :: bs) ws ∧ (Cond.cond b).isSome = true ∧ (b :: bs : List Cond) ≠ [] := by
  unfold nodeIf at h
  obtain ⟨l1, r1, pws1, h1, h⟩ := bind_ok h
  obtain ⟨l2, r2, cond, h2, h⟩ := bind_ok h
  replace h := pmcut_ok h
  obtain ⟨l3, r3, nws1, h3, h⟩ := bind_ok h
  obtain ⟨l4, r4, _, h4, h⟩ := bind_ok h
  replace h := pmcut_ok h
  obtain ⟨l5, r5, block, h5, h⟩ := bind_ok h
  obtain ⟨l6, r6, elifs, h6, h⟩ := bind_ok h
  replace h := pmcut_ok h
  obtain ⟨l7, r7, _, h7, h⟩ := bind_ok h
  obtain ⟨l8, r8, pws2, h8, h⟩ := bind_ok h
  obtain ⟨l9, r9, _, h9, h⟩ := bind_ok h
  obtain ⟨l10, r10, nws2, h10, h⟩ := bind_ok h
  obtain ⟨-, -, hv⟩ := pmpure_ok h
  exact ⟨_, _, _, hv, rfl, by simp⟩

/-- C9 witness: applying the theorem to the successful parse of
`if x %}A{% endif` yields a non-empty branch list whose head carries the
condition. -/
theorem c9_first_branch_conditioned_witness :
    ∃ b bs ws,
      (Node.Cond
        [Cond.mk (Ws.mk none none)
          (some (CondTest.mk none (Expr.Var (("x").toList)))) [Node.Lit [] (("A").toList) []]]
        (Ws.mk none none)) = Node.Cond (b :: bs) ws ∧
      (Cond.cond b).isSome = true ∧ (b :: bs : List Cond) ≠ [] :=
  c9_first_branch_conditioned defaultSyn (fam defaultSyn 10) 10 0 0 inpIfGood
    (("%\x7d").toList)
    (Node.Cond
      [Cond.mk (Ws.mk none none)
        (some (CondTest.mk none (Expr.Var (("x").toList)))) [Node.Lit [] (("A").toList) []]]
      (Ws.mk none none)) rfl

/-! ## Claim C1 (corrected) -/

/-- C1 counterexample: the claim asserts the arm order `when A`, `when B`,
`else`, `when C` parses successfully (producing `[A, B, C, else]`); on the
code a `when` arm after the `else` arm is a fatal parse failure (after the
optional `else` arm only `endmatch` is accepted, under a `cut`). -/
theorem c1_counterexample : parseTemplate defaultSyn 12 tmplMatchBadOrder = .fail := rfl

/-- C1 (amended): a `when` arm after the `else` arm does not parse (see the
counterexample); for every successfully parsed match construct the arm list
is the parsed `when` arms followed by the optional `else` arm — so an
`else` arm, when present, is always the last element. -/
theorem c1_else_arm_last (syn : Syn) (f : Fam) (tf lvl l : Nat)
    (i r : List Char) (v : Node)
    (h : nodeMatch syn f tf lvl i = (l, .ok r v)) :
    ∃ (ws1 : Ws) (scrut : Expr) (l1 l2 : Nat) (i1 i2 : List Char)
      (whenArms : List When) (elseArm : Option When) (ws2 : Ws),
      pmmany1 (whenWhenB syn f tf) l1 i1 = (l2, .ok i2 whenArms) ∧
      (∃ l3 i3, pmopt (whenElseB syn f) l2 i2 = (l3, .ok i3 elseArm)) ∧
      v = Node.Match ws1 scrut (whenArms ++ elseArm.toList) ws2 := by
  unfold nodeMatch at h
  obtain ⟨l1, r1, pws1, h1, h⟩ := bind_ok h
  obtain ⟨l2, r2, _, h2, h⟩ := bind_ok h
  replace h := pmcut_ok h
  obtain ⟨l3, r3, scrut, h3, h⟩ := bind_ok h
  obtain ⟨l4, r4, nws1, h4, h⟩ := bind_ok h
  obtain ⟨l5, r5, _, h5, h⟩ := bind_ok h
  replace h := pmcut_ok h
  obtain ⟨l6, r6, _, h6, h⟩ := bind_ok h
  obtain ⟨l7, r7, whenArms, h7, h⟩ := bind_ok h
  replace h := pmcut_ok h
  obtain ⟨l8, r8, elseArm, h8, h⟩ := bind_ok h
  replace h := pmcut_ok h
  obtain ⟨l9, r9, _, h9, h⟩ := bind_ok h
  obtain ⟨l10, r10, pws2, h10, h⟩ := bind_ok h
  obtain ⟨l11, r11, _, h11, h⟩ := bind_ok h
  obtain ⟨l12, r12, nws2, h12, h⟩ := bind_ok h
  obtain ⟨-, -, hv⟩ := pmpure_ok h
  obtain ⟨hl6, -⟩ := plift_ok h6
  exact ⟨Ws.mk pws1 nws1, scrut, l6, l7, r6, r7, whenArms, elseArm, Ws.mk pws2 nws2,
    h7, ⟨l8, r8, h8⟩, hv⟩

/-- C1 witness: applying the theorem to the successful parse of
`match x %}{% when a %}A{% when b %}B{% else %}E{% endmatch` — the arm list
is the two `when` arms followed by the `else` arm (target `_`) last. -/
theorem c1_else_arm_last_witness :
    ∃ (ws1 : Ws) (scrut : Expr) (l1 l2 : Nat) (i1 i2 : List Char)
      (whenArms : List When) (elseArm : Option When) (ws2 : Ws),
      pmmany1 (whenWhenB defaultSyn (fam defaultSyn 10) 10) l1 i1 = (l2, .ok i2 whenArms) ∧
      (∃ l3 i3, pmopt (whenElseB defaultSyn (fam defaultSyn 10)) l2 i2 = (l3, .ok i3 elseArm)) ∧
      (Node.Match (Ws.mk none none) (Expr.Var (("x").toList))
        [When.mk (Ws.mk none none) (Target.Name (("a").toList)) [Node.Lit [] (("A").toList) []],
         When.mk (Ws.mk none none) (Target.Name (("b").toList)) [Node.Lit [] (("B").toList) []],
         When.mk (Ws.mk none none) (Target.Name wildcardName) [Node.Lit [] (("E").toList) []]]
        (Ws.mk none none))
        = Node.Match ws1 scrut (whenArms ++ elseArm.toList) ws2 :=
  c1_else_arm_last defaultSyn (fam defaultSyn 10) 10 0 0 inpMatchGood (("%\x7d").toList)
    (Node.Match (Ws.mk none none) (Expr.Var (("x").toList))
      [When.mk (Ws.mk none none) (Target.Name (("a").toList)) [Node.Lit [] (("A").toList) []],
       When.mk (Ws.mk none none) (Target.Name (("b").toList)) [Node.Lit [] (("B").toList) []],
       When.mk (Ws.mk none none) (Target.Name wildcardName) [Node.Lit [] (("E").toList) []]]
      (Ws.mk none none)) rfl

/-! ## Claim C10 -/

/-- C10: a macro construct declared with the reserved name `super` is
rejected — `{% macro super() %}x{% endmacro %}` aborts the parse (the
source's `assert_ne!` panic, modelled as a fatal failure), and no successful
run of the macro parser ever returns a `MacroDef` node named `super`. -/
theorem c10_macro_super_rejected :
    parseTemplate defaultSyn 12 tmplMacroSuper = .fail ∧
    ∀ (syn : Syn) (f : Fam) (lvl l : Nat) (i r : List Char) (v : Node)
      (nm : List Char) (m : Macro),
      nodeMacro syn f lvl i = (l, .ok r v) → v = Node.MacroDef nm m → nm ≠ kwSuper := by
  refine ⟨rfl, ?_⟩
  intro syn f lvl l i r v nm m h hv
  unfold nodeMacro at h
  obtain ⟨l1, r1, pws1, h1, h⟩ := bind_ok h
  obtain ⟨l2, r2, _, h2, h⟩ := bind_ok h
  replace h := pmcut_ok h
  obtain ⟨l3, r3, name, h3, h⟩ := bind_ok h
  obtain ⟨l4, r4, params, h4, h⟩ := bind_ok h
  obtain ⟨l5, r5, nws1, h5, h⟩ := bind_ok h
  obtain ⟨l6, r6, _, h6, h⟩ := bind_ok h
  replace h := pmcut_ok h
  obtain ⟨l7, r7, contents, h7, h⟩ := bind_ok h
  replace h := pmcut_ok h
  obtain ⟨l8, r8, _, h8, h⟩ := bind_ok h
  obtain ⟨l9, r9, pws2, h9, h⟩ := bind_ok h
  obtain ⟨l10, r10, _, h10, h⟩ := bind_ok h
  replace h := pmcut_ok h
  obtain ⟨l11, r11, _, h11, h⟩ := bind_ok h
  obtain ⟨l12, r12, nws2, h12, h⟩ := bind_ok h
  obtain ⟨hne, hv2⟩ := assertNotSuper_ok h
  rw [hv] at hv2
  injection hv2 with hnm hm
  rw [hnm]
  exact hne

/-- C10 witness: a legal macro name returned by a successful macro parse
(`macro m() %}x{% endmacro`) differs from `super`, by the theorem. -/
theorem c10_macro_super_rejected_witness : (("m").toList : List Char) ≠ kwSuper :=
  c10_macro_super_rejected.2 defaultSyn (fam defaultSyn 10) 0 0 inpMacroGood
    (("%\x7d").toList)
    (Node.MacroDef (("m").toList)
      (Macro.mk (Ws.mk none none) [] [Node.Lit [] (("x").toList) []] (Ws.mk none none)))
    (("m").toList)
    (Macro.mk (Ws.mk none none) [] [Node.Lit [] (("x").toList) []] (Ws.mk none none))
    rfl rfl

/-! ## Helper lemmas for the literal-text scanner (C6) -/

theorem hasSub_head {pat i : List Char} (h : hasSub pat i = false) :
    pat.isPrefixOf i = false := by
  cases i with
  | nil => exact h
  | cons c t =>
    simp only [hasSub] at h
    exact (Bool.or_eq_false_iff.mp h).1

theorem hasSub_tail {pat : List Char} {c : Char} {t : List Char}
    (h : hasSub pat (c :: t) = false) : hasSub pat t = false := by
  simp only [hasSub] at h
  exact (Bool.or_eq_false_iff.mp h).2

theorem startMarker_err {i : List Char} (h1 : hasSub dBlockStart i = false)
    (h2 : hasSub dCommentStart i = false) (h3 : hasSub dExprStart i = false) :
    startMarker defaultSyn i = .err := by
  unfold startMarker palt ptag defaultSyn
  simp [hasSub_head h1, hasSub_head h2, hasSub_head h3]

theorem skipTill_ok_at_zero {α : Type} {p : P α} {i j : List Char} {v : α}
    (h : p i = .ok j v) : skipTill p i = .ok i (j, v) := by
  cases i with
  | nil => unfold skipTill; rw [h]
  | cons c t => unfold skipTill; rw [h]

theorem skipTill_err_step {α : Type} {p : P α} {c : Char} {t : List Char}
    (h : p (c :: t) = .err) : skipTill p (c :: t) = skipTill p t := by
  show (match p (c :: t) with
        | .ok j v => Step.ok (c :: t) (j, v)
        | .fail => .fail
        | .err => skipTill p t) = skipTill p t
  rw [h]

theorem skipTill_first {α : Type} {p : P α} :
    ∀ (t suffix : List Char) {j : List Char} {v : α},
      (∀ k, k < t.length → p (t.drop k ++ suffix) = .err) →
      p suffix = .ok j v →
      skipTill p (t ++ suffix) = .ok suffix (j, v) := by
  intro t
  induction t with
  | nil =>
    intro suffix j v _ hp
    exact skipTill_ok_at_zero hp
  | cons c t2 ih =>
    intro suffix j v hH hp
    have h0 : p (c :: (t2 ++ suffix)) = .err := hH 0 (by simp)
    rw [List.cons_append, skipTill_err_step h0]
    exact ih suffix (fun k hk => hH (k + 1) (by simp only [List.length_cons]; omega)) hp

theorem skipTill_startMarker_err :
    ∀ i : List Char, hasSub dBlockStart i = false → hasSub dCommentStart i = false →
      hasSub dExprStart i = false → skipTill (startMarker defaultSyn) i = .err := by
  intro i
  induction i with
  | nil =>
    intro h1 h2 h3
    unfold skipTill
    rw [startMarker_err h1 h2 h3]
  | cons c t ih =>
    intro h1 h2 h3
    rw [skipTill_err_step (startMarker_err h1 h2 h3)]
    exact ih (hasSub_tail h1) (hasSub_tail h2) (hasSub_tail h3)

theorem content_takes_all {i : List Char} (hne : i ≠ []) (h1 : hasSub dBlockStart i = false)
    (h2 : hasSub dCommentStart i = false) (h3 : hasSub dExprStart i = false) :
    Node.content defaultSyn i = .ok [] (splitWsParts i) := by
  have hs := skipTill_startMarker_err i h1 h2 h3
  have hopt : popt (precognize (skipTill (startMarker defaultSyn))) i = .ok i none := by
    unfold popt precognize
    rw [hs]
  cases i with
  | nil => exact absurd rfl hne
  | cons c t =>
    unfold Node.content P.bind
    dsimp only [pnot, peof]
    rw [hopt]

theorem parse_nil_err : ∀ fuel lvl : Nat, (fam defaultSyn fuel).parse lvl [] = (lvl, .err) := by
  intro fuel lvl
  cases fuel with
  | zero => rfl
  | succ n => rfl

theorem many_single_lit (fuel lvl : Nat) (i : List Char) (hne : i ≠ [])
    (h1 : hasSub dBlockStart i = false) (h2 : hasSub dCommentStart i = false)
    (h3 : hasSub dExprStart i = false) :
    (fam defaultSyn (fuel + 1)).many lvl i = (lvl, .ok [] [splitWsParts i]) := by
  have hc := content_takes_all hne h1 h2 h3
  have halt : pmalt (plift (Node.content defaultSyn))
      (pmalt (plift (Node.comment defaultSyn))
        (pmalt (plift (Node.exprP defaultSyn)) (fam defaultSyn fuel).parse)) lvl i
      = (lvl, .ok [] (splitWsParts i)) := by
    unfold pmalt plift
    rw [hc]
  have halt2 : ∀ l : Nat, pmalt (plift (Node.content defaultSyn))
      (pmalt (plift (Node.comment defaultSyn))
        (pmalt (plift (Node.exprP defaultSyn)) (fam defaultSyn fuel).parse)) l []
      = (l, .err) := by
    intro l
    have hc0 : Node.content defaultSyn [] = .err := rfl
    have hcm : Node.comment defaultSyn [] = .err := rfl
    have hex : Node.exprP defaultSyn [] = .err := rfl
    unfold pmalt plift
    rw [hc0]
    dsimp only
    rw [hcm]
    dsimp only
    rw [hex]
    dsimp only
    rw [parse_nil_err]
  obtain ⟨k, hk⟩ : ∃ k, i.length = k + 1 := by
    cases i with
    | nil => exact absurd rfl hne
    | cons c t => exact ⟨t.length, by simp⟩
  show nodeMany defaultSyn (fam defaultSyn fuel) lvl i = _
  unfold nodeMany pmmany0
  rw [hk]
  unfold pmmany0Aux
  rw [halt]
  dsimp only
  rw [if_neg (by simp [hk])]
  unfold pmmany0Aux
  rw [halt2]

theorem splitWsParts_decomp (i : List Char) :
    ∃ lws core rws, splitWsParts i = Node.Lit lws core rws ∧ lws ++ (core ++ rws) = i := by
  refine ⟨_, _, _, rfl, ?_⟩
  have h2 : ((i.dropWhile Char.isWhitespace).reverse.dropWhile Char.isWhitespace).reverse ++
      ((i.dropWhile Char.isWhitespace).reverse.takeWhile Char.isWhitespace).reverse
      = i.dropWhile Char.isWhitespace := by
    rw [← List.reverse_append, List.takeWhile_append_dropWhile, List.reverse_reverse]
  rw [h2, List.takeWhile_append_dropWhile]

theorem content_err_at_marker (j : List Char)
    (h : dBlockStart.isPrefixOf j = true ∨ dCommentStart.isPrefixOf j = true ∨
         dExprStart.isPrefixOf j = true) :
    Node.content defaultSyn j = .err := by
  have hsm : ∃ r v, startMarker defaultSyn j = .ok r v := by
    unfold startMarker palt ptag defaultSyn
    by_cases hbs : dBlockStart.isPrefixOf j
    · simp only [hbs, if_pos]; exact ⟨_, _, rfl⟩
    · by_cases hcs : dCommentStart.isPrefixOf j
      · simp only [hbs, hcs]; exact ⟨_, _, rfl⟩
      · have hes : dExprStart.isPrefixOf j = true := by
          rcases h with h | h | h
          · exact absurd h (by simp [hbs])
          · exact absurd h (by simp [hcs])
          · exact h
        simp only [hbs, hcs, hes]
        exact ⟨_, _, rfl⟩
  obtain ⟨r, v, hsm⟩ := hsm
  have hne : j ≠ [] := by
    intro hj
    subst hj
    rcases h with h | h | h <;> simp [dBlockStart, dCommentStart, dExprStart] at h
  have hskip : skipTill (startMarker defaultSyn) j = .ok j (r, v) :=
    skipTill_ok_at_zero hsm
  have hopt : popt (precognize (skipTill (startMarker defaultSyn))) j = .ok j (some []) := by
    unfold popt precognize
    rw [hskip]
    simp
  cases j with
  | nil => exact absurd rfl hne
  | cons c t =>
    unfold Node.content P.bind
    dsimp only [pnot, peof]
    rw [hopt]

/-! ## Claim C6 (corrected) -/

/-- C6 counterexample: the claim asserts the single produced `Lit` node's
core text equals the input; on the input `" a"` (non-empty, marker-free)
the scanner splits off the leading whitespace, so the core is `"a"`, not
`" a"` (the whitespace run is preserved in the `Lit`'s side field). -/
theorem c6_counterexample :
    parseTemplate defaultSyn 1 ((" a").toList) = .ok [] [Node.Lit [' '] ['a'] []] ∧
    (['a'] : List Char) ≠ (" a").toList := ⟨rfl, by decide⟩

/-- C6 (amended): for every non-empty input containing no occurrence of any
configured start marker, parsing yields exactly one `Lit` node, whose
whitespace-split parts concatenate back to the input (the core is the input
with its leading/trailing whitespace runs moved to the side fields); and the
literal-text scanner fails recoverably when a start marker occurs at offset
zero of the input. -/
theorem c6_lit_scan (i : List Char) (hne : i ≠ [])
    (h1 : hasSub dBlockStart i = false) (h2 : hasSub dCommentStart i = false)
    (h3 : hasSub dExprStart i = false) :
    (∀ fuel, parseTemplate defaultSyn (fuel + 1) i = .ok [] [splitWsParts i]) ∧
    (∃ lws core rws, splitWsParts i = Node.Lit lws core rws ∧ lws ++ (core ++ rws) = i) ∧
    (∀ j : List Char,
      dBlockStart.isPrefixOf j = true ∨ dCommentStart.isPrefixOf j = true ∨
        dExprStart.isPrefixOf j = true →
      Node.content defaultSyn j = .err) := by
  refine ⟨?_, splitWsParts_decomp i, content_err_at_marker⟩
  intro fuel
  unfold parseTemplate
  rw [many_single_lit fuel 0 i hne h1 h2 h3]
  rfl

/-- C6 witness: the marker-free input `ab` parses to the single `Lit` node
with empty whitespace runs, and a block marker at offset zero makes the
scanner fail recoverably. -/
theorem c6_lit_scan_witness :
    parseTemplate defaultSyn 1 (("ab").toList) = .ok [] [splitWsParts (("ab").toList)] ∧
    Node.content defaultSyn (("\x7b% if").toList) = .err := by
  have h := c6_lit_scan (("ab").toList) (by decide) (by decide) (by decide) (by decide)
  exact ⟨h.1 0, h.2.2 (("\x7b% if").toList) (Or.inl (by decide))⟩

/-! ## Helper lemmas for the comment grammar (C8) -/

theorem ptag_self_append (t x : List Char) : ptag t (t ++ x) = .ok x t := by
  unfold ptag
  rw [if_pos (by simp [List.isPrefixOf_iff_prefix])]
  rw [List.drop_left]

theorem takeUntil_at_hit {pat i : List Char} (h : pat.isPrefixOf i = true) :
    takeUntil pat i = .ok i [] := by
  cases i with
  | nil => unfold takeUntil; rw [if_pos h]
  | cons c t => unfold takeUntil; rw [if_pos h]

theorem takeUntil_step {pat : List Char} {c : Char} {t : List Char}
    (h : pat.isPrefixOf (c :: t) = false) :
    takeUntil pat (c :: t) =
      match takeUntil pat t with
      | .ok r v => .ok r (c :: v)
      | .err => .err
      | .fail => .fail := by
  conv_lhs => unfold takeUntil
  rw [if_neg (by simp [h])]

theorem takeUntil_safe_append {p0 : Char} {pr : List Char} :
    ∀ (xs ys : List Char), (∀ ch ∈ xs, ch ≠ p0) →
    takeUntil (p0 :: pr) (xs ++ ys) =
      match takeUntil (p0 :: pr) ys with
      | .ok r v => .ok r (xs ++ v)
      | .err => .err
      | .fail => .fail := by
  intro xs
  induction xs with
  | nil =>
    intro ys h
    cases hy : takeUntil (p0 :: pr) ys <;> simp [hy]
  | cons x t ih =>
    intro ys h
    have hx : (p0 == x) = false := beq_eq_false_iff_ne.mpr (Ne.symm (h x (by simp)))
    have hpre : (p0 :: pr).isPrefixOf (x :: (t ++ ys)) = false := by
      simp [List.isPrefixOf, hx]
    rw [List.cons_append, takeUntil_step hpre, ih ys (fun ch hch => h ch (by simp [hch]))]
    cases hy : takeUntil (p0 :: pr) ys <;> simp

theorem takeUntil_none {p0 : Char} {pr : List Char} :
    ∀ l : List Char, (∀ ch ∈ l, ch ≠ p0) → takeUntil (p0 :: pr) l = .err := by
  intro l
  induction l with
  | nil => intro h; rfl
  | cons x t ih =>
    intro h
    have hx : (p0 == x) = false := beq_eq_false_iff_ne.mpr (Ne.symm (h x (by simp)))
    have hpre : (p0 :: pr).isPrefixOf (x :: t) = false := by
      simp [List.isPrefixOf, hx]
    rw [takeUntil_step hpre, ih (fun ch hch => h ch (by simp [hch]))]

theorem takeUntil_ok_length {pat : List Char} :
    ∀ (l : List Char) {r v : List Char}, takeUntil pat l = .ok r v → r.length ≤ l.length := by
  intro l
  induction l with
  | nil =>
    intro r v h
    unfold takeUntil at h
    by_cases hp : pat.isPrefixOf [] = true
    · rw [if_pos hp] at h; injection h with h1 h2; subst h1; exact le_rfl
    · rw [if_neg (by simp [hp])] at h; exact absurd h (by simp)
  | cons x t ih =>
    intro r v h
    unfold takeUntil at h
    by_cases hp : pat.isPrefixOf (x :: t) = true
    · rw [if_pos hp] at h; injection h with h1 h2; subst h1; exact le_rfl
    · rw [if_neg (by simp [hp])] at h
      cases ht : takeUntil pat t with
      | ok r2 v2 =>
        rw [ht] at h
        injection h with h1 h2
        subst h1
        exact le_trans (ih ht) (by simp)
      | err => rw [ht] at h; exact absurd h (by simp)
      | fail => rw [ht] at h; exact absurd h (by simp)

theorem mem_of_getLast?_chars :
    ∀ (l : List Char) (x : Char), l.getLast? = some x → x ∈ l := by
  intro l
  induction l with
  | nil => intro x h; exact absurd h (by simp)
  | cons a t ih =>
    intro x h
    cases t with
    | nil =>
      have hax : a = x := by simpa using h
      simp [hax]
    | cons b t2 =>
      rw [List.getLast?_cons_cons] at h
      exact List.mem_cons_of_mem a (ih x h)

theorem commentSafe_ne {ch : Char} (h : commentSafe ch = true) :
    ch ≠ '#' ∧ ch ≠ chLBrace ∧ ch ≠ chRBrace ∧ ch ≠ '-' ∧ ch ≠ '+' ∧ ch ≠ '~' := by
  unfold commentSafe at h
  rcases Bool.or_eq_true_iff.mp h with h2 | h2
  · refine ⟨?_, ?_, ?_, ?_, ?_, ?_⟩ <;>
      (intro he; rw [he] at h2; exact absurd h2 (by decide))
  · have : ch = ' ' := by simpa using h2
    subst this
    refine ⟨by decide, by decide, by decide, by decide, by decide, by decide⟩

theorem trailingWsOf_safe {c : List Char} (hc : ∀ ch ∈ c, commentSafe ch = true) :
    trailingWsOf c = none := by
  unfold trailingWsOf
  cases hgl : c.getLast? with
  | none => simp
  | some x =>
    have hx := commentSafe_ne (hc x (mem_of_getLast?_chars c x hgl))
    rw [if_neg (by simp [hx.2.2.2.1]), if_neg (by simp [hx.2.2.2.2.1]),
        if_neg (by simp [hx.2.2.2.2.2])]

/-- A once-unfolding of the comment-body scan at positive fuel. -/
theorem commentBodyAux_succ (syn : Syn) (n level : Nat) (i : List Char) :
    commentBodyAux syn (n + 1) level i =
      match takeUntil syn.commentEnd i with
      | .err => .err
      | .fail => .fail
      | .ok endR tail =>
        match
          (match takeUntil syn.commentStart i with
           | .ok startR _ => if endR.length < startR.length then some startR else none
           | _ => none) with
        | some startR => commentBodyAux syn n (level + 1) (startR.drop 2)
        | none =>
          if 0 < level then commentBodyAux syn n (level - 1) (endR.drop 2)
          else .ok endR tail := rfl

/-- The comment-body scan on a body with one nested, balanced
comment-start/comment-end pair: it does not stop at the inner comment-end
but at the matching outer one, returning the input positioned there. -/
theorem commentBody_nested (f2 : Nat) (a b c rest : List Char)
    (ha : ∀ ch ∈ a, commentSafe ch = true) (hb : ∀ ch ∈ b, commentSafe ch = true)
    (hc : ∀ ch ∈ c, commentSafe ch = true) :
    commentBodyAux defaultSyn (f2 + 3) 0
      (a ++ '\x7b' :: '#' :: (b ++ '#' :: '\x7d' :: (c ++ '#' :: '\x7d' :: rest)))
      = .ok ('#' :: '\x7d' :: rest) c := by
  have hce : defaultSyn.commentEnd = '#' :: ['\x7d'] := rfl
  have hcs : defaultSyn.commentStart = '\x7b' :: ['#'] := rfl
  have haH : ∀ ch ∈ a, ch ≠ '#' := fun ch h => (commentSafe_ne (ha ch h)).1
  have haL : ∀ ch ∈ a, ch ≠ '\x7b' := fun ch h => (commentSafe_ne (ha ch h)).2.1
  have hbH : ∀ ch ∈ b, ch ≠ '#' := fun ch h => (commentSafe_ne (hb ch h)).1
  have hbL : ∀ ch ∈ b, ch ≠ '\x7b' := fun ch h => (commentSafe_ne (hb ch h)).2.1
  have hcH : ∀ ch ∈ c, ch ≠ '#' := fun ch h => (commentSafe_ne (hc ch h)).1
  have hcL : ∀ ch ∈ c, ch ≠ '\x7b' := fun ch h => (commentSafe_ne (hc ch h)).2.1
  -- the CE scan inside the nested region: stops at the inner comment-end
  have htCE_S2 : takeUntil ('#' :: ['\x7d'])
      (b ++ '#' :: '\x7d' :: (c ++ '#' :: '\x7d' :: rest))
      = .ok ('#' :: '\x7d' :: (c ++ '#' :: '\x7d' :: rest)) b := by
    rw [takeUntil_safe_append b ('#' :: '\x7d' :: (c ++ '#' :: '\x7d' :: rest)) hbH]
    rw [takeUntil_at_hit (by simp [List.isPrefixOf])]
    simp
  -- the comment-end pattern does not match at the hash of the inner start
  have hPre2 : (('#' :: ['\x7d']) : List Char).isPrefixOf
      ('#' :: (b ++ '#' :: '\x7d' :: (c ++ '#' :: '\x7d' :: rest))) = false := by
    cases b with
    | nil => simp [List.isPrefixOf]
    | cons b0 tb =>
      have hb0 : ('\x7d' == b0) = false :=
        beq_eq_false_iff_ne.mpr (Ne.symm (commentSafe_ne (hb b0 (by simp))).2.2.1)
      simp [List.isPrefixOf, hb0]
  have htCE_headS2 : takeUntil ('#' :: ['\x7d'])
      ('#' :: (b ++ '#' :: '\x7d' :: (c ++ '#' :: '\x7d' :: rest)))
      = .ok ('#' :: '\x7d' :: (c ++ '#' :: '\x7d' :: rest)) ('#' :: b) := by
    rw [takeUntil_step hPre2, htCE_S2]
  have hsafeAL : ∀ ch ∈ a ++ ['\x7b'], ch ≠ '#' := by
    intro ch hch
    rcases List.mem_append.mp hch with h | h
    · exact haH ch h
    · have : ch = '\x7b' := by simpa using h
      subst this
      decide
  have hreassoc : a ++ '\x7b' :: '#' :: (b ++ '#' :: '\x7d' :: (c ++ '#' :: '\x7d' :: rest))
      = (a ++ ['\x7b']) ++ '#' :: (b ++ '#' :: '\x7d' :: (c ++ '#' :: '\x7d' :: rest)) := by
    simp
  have htCE_i0 : takeUntil ('#' :: ['\x7d'])
      (a ++ '\x7b' :: '#' :: (b ++ '#' :: '\x7d' :: (c ++ '#' :: '\x7d' :: rest)))
      = .ok ('#' :: '\x7d' :: (c ++ '#' :: '\x7d' :: rest)) ((a ++ ['\x7b']) ++ '#' :: b) := by
    rw [hreassoc]
    rw [takeUntil_safe_append (a ++ ['\x7b'])
      ('#' :: (b ++ '#' :: '\x7d' :: (c ++ '#' :: '\x7d' :: rest))) hsafeAL]
    rw [htCE_headS2]
  have htCS_i0 : takeUntil ('\x7b' :: ['#'])
      (a ++ '\x7b' :: '#' :: (b ++ '#' :: '\x7d' :: (c ++ '#' :: '\x7d' :: rest)))
      = .ok ('\x7b' :: '#' :: (b ++ '#' :: '\x7d' :: (c ++ '#' :: '\x7d' :: rest))) a := by
    rw [takeUntil_safe_append a
      ('\x7b' :: '#' :: (b ++ '#' :: '\x7d' :: (c ++ '#' :: '\x7d' :: rest))) haL]
    rw [takeUntil_at_hit (by simp [List.isPrefixOf])]
    simp
  -- the CS scan strictly inside the nested region finds a start only in
  -- `rest`, which is too short to come before the tracked comment-end
  have hCSstep1 : (('\x7b' :: ['#']) : List Char).isPrefixOf
      ('#' :: ('\x7d' :: (c ++ '#' :: '\x7d' :: rest))) = false := by
    simp [List.isPrefixOf]
  have hCSstep2 : (('\x7b' :: ['#']) : List Char).isPrefixOf
      ('\x7d' :: (c ++ '#' :: '\x7d' :: rest)) = false := by
    simp [List.isPrefixOf]
  have hCSstep3 : (('\x7b' :: ['#']) : List Char).isPrefixOf ('#' :: ('\x7d' :: rest)) = false := by
    simp [List.isPrefixOf]
  have hCSstep4 : (('\x7b' :: ['#']) : List Char).isPrefixOf ('\x7d' :: rest) = false := by
    simp [List.isPrefixOf]
  have hGuard2 : (match takeUntil ('\x7b' :: ['#'])
        (b ++ '#' :: '\x7d' :: (c ++ '#' :: '\x7d' :: rest)) with
      | .ok startR _ =>
        if ('#' :: '\x7d' :: (c ++ '#' :: '\x7d' :: rest)).length < startR.length then
          some startR
        else none
      | _ => none) = none := by
    rw [takeUntil_safe_append b ('#' :: '\x7d' :: (c ++ '#' :: '\x7d' :: rest)) hbL]
    rw [takeUntil_step hCSstep1, takeUntil_step hCSstep2]
    rw [takeUntil_safe_append c ('#' :: '\x7d' :: rest) hcL]
    rw [takeUntil_step hCSstep3, takeUntil_step hCSstep4]
    cases hr : takeUntil ('\x7b' :: ['#']) rest with
    | ok r2 v2 =>
      have hlen := takeUntil_ok_length rest hr
      dsimp only
      rw [if_neg (by simp only [List.length_cons, List.length_append]; omega)]
    | err => rfl
    | fail => rfl
  have hGuard3 : (match takeUntil ('\x7b' :: ['#']) (c ++ '#' :: '\x7d' :: rest) with
      | .ok startR _ =>
        if ('#' :: '\x7d' :: rest).length < startR.length then some startR else none
      | _ => none) = none := by
    rw [takeUntil_safe_append c ('#' :: '\x7d' :: rest) hcL]
    rw [takeUntil_step hCSstep3, takeUntil_step hCSstep4]
    cases hr : takeUntil ('\x7b' :: ['#']) rest with
    | ok r2 v2 =>
      have hlen := takeUntil_ok_length rest hr
      dsimp only
      rw [if_neg (by simp only [List.length_cons, List.length_append]; omega)]
    | err => rfl
    | fail => rfl
  have htCE_S3 : takeUntil ('#' :: ['\x7d']) (c ++ '#' :: '\x7d' :: rest)
      = .ok ('#' :: '\x7d' :: rest) c := by
    rw [takeUntil_safe_append c ('#' :: '\x7d' :: rest) hcH]
    rw [takeUntil_at_hit (by simp [List.isPrefixOf])]
    simp
  -- iteration 1: the inner comment-start comes first, open one level
  rw [commentBodyAux_succ, hce, hcs, htCE_i0]
  dsimp only
  rw [htCS_i0]
  dsimp only
  rw [if_pos (by simp only [List.length_cons, List.length_append]; omega)]
  dsimp only [List.drop]
  -- iteration 2: the inner comment-end closes the level
  rw [commentBodyAux_succ, hce, hcs, htCE_S2]
  dsimp only
  rw [hGuard2]
  dsimp only
  rw [if_pos (by omega)]
  dsimp only [List.drop]
  -- iteration 3: the outer comment-end ends the body
  rw [commentBodyAux_succ, hce, hcs, htCE_S3]
  dsimp only
  rw [hGuard3]
  dsimp only
  rw [if_neg (by omega)]

/-! ## Claim C8 -/

/-- C8: a comment whose body contains a nested, balanced
comment-start/comment-end pair is consumed as one single `Comment` node
extending to the matching outer comment-end marker — it does not terminate
at the inner comment-end.  Stated for arbitrary delimiter-free segments
`a`, `b`, `c` around the nested pair and arbitrary following input. -/
theorem c8_comment_nesting (a b c rest : List Char)
    (ha : ∀ ch ∈ a, commentSafe ch = true) (hb : ∀ ch ∈ b, commentSafe ch = true)
    (hc : ∀ ch ∈ c, commentSafe ch = true) :
    Node.comment defaultSyn
      (dCommentStart ++ a ++ dCommentStart ++ b ++ dCommentEnd ++ c ++ dCommentEnd ++ rest)
      = .ok rest (Node.Comment (Ws.mk none none)) := by
  have hcs2 : dCommentStart = ['\x7b', '#'] := rfl
  have hce2 : dCommentEnd = ['#', '\x7d'] := rfl
  have hin : dCommentStart ++ a ++ dCommentStart ++ b ++ dCommentEnd ++ c ++ dCommentEnd ++ rest
      = dCommentStart ++ (a ++ '\x7b' :: '#' :: (b ++ '#' :: '\x7d' :: (c ++ '#' :: '\x7d' :: rest))) := by
    simp [hcs2, hce2]
  have hws : whitespaceP (a ++ '\x7b' :: '#' :: (b ++ '#' :: '\x7d' :: (c ++ '#' :: '\x7d' :: rest)))
      = .err := by
    cases a with
    | nil =>
      simp only [List.nil_append]
      unfold whitespaceP
      dsimp only
      rw [if_neg (by decide), if_neg (by decide), if_neg (by decide)]
    | cons a0 t0 =>
      have h0 := commentSafe_ne (ha a0 (by simp))
      simp only [List.cons_append]
      unfold whitespaceP
      dsimp only
      rw [if_neg h0.2.2.2.1, if_neg h0.2.2.2.2.1, if_neg h0.2.2.2.2.2]
  have hopt : popt whitespaceP
      (a ++ '\x7b' :: '#' :: (b ++ '#' :: '\x7d' :: (c ++ '#' :: '\x7d' :: rest)))
      = .ok (a ++ '\x7b' :: '#' :: (b ++ '#' :: '\x7d' :: (c ++ '#' :: '\x7d' :: rest))) none := by
    unfold popt
    rw [hws]
  have hbody : commentBody defaultSyn
      (a ++ '\x7b' :: '#' :: (b ++ '#' :: '\x7d' :: (c ++ '#' :: '\x7d' :: rest)))
      = .ok ('#' :: '\x7d' :: rest) c := by
    unfold commentBody
    obtain ⟨f2, hf2⟩ : ∃ f2,
        (a ++ '\x7b' :: '#' :: (b ++ '#' :: '\x7d' :: (c ++ '#' :: '\x7d' :: rest))).length + 1
          = f2 + 3 :=
      ⟨(a ++ '\x7b' :: '#' :: (b ++ '#' :: '\x7d' :: (c ++ '#' :: '\x7d' :: rest))).length - 2, by
        simp only [List.length_append, List.length_cons]
        omega⟩
    rw [hf2]
    exact commentBody_nested f2 a b c rest ha hb hc
  have hptagce : ptag defaultSyn.commentEnd ('#' :: '\x7d' :: rest) = .ok rest dCommentEnd :=
    ptag_self_append dCommentEnd rest
  have hcsd : defaultSyn.commentStart = dCommentStart := rfl
  rw [hin]
  unfold Node.comment P.bind pcut
  rw [hcsd, ptag_self_append]
  dsimp only
  rw [hopt]
  dsimp only
  rw [hbody]
  dsimp only
  rw [hptagce]
  dsimp only
  rw [trailingWsOf_safe hc]
  rfl

/-- C8 witness: the concrete comment `{# a {# b #} c #}x…` (instantiating the
theorem) is one comment ending at the outer `#}`, leaving `x` unconsumed. -/
theorem c8_comment_nesting_witness :
    Node.comment defaultSyn
      (dCommentStart ++ ((" a ").toList) ++ dCommentStart ++ (("b").toList) ++ dCommentEnd ++
        ((" c ").toList) ++ dCommentEnd ++ (("x").toList))
      = .ok (("x").toList) (Node.Comment (Ws.mk none none)) :=
  c8_comment_nesting ((" a ").toList) (("b").toList) ((" c ").toList) (("x").toList)
    (by decide) (by decide) (by decide)

/-! ## Claim C7 -/

/-- C7: everything between a `raw` tag and the first following `endraw` tag
is captured verbatim as the literal content of a single `Raw` node.  General
form: for every content `t` at no position of which the `endraw` recognizer
matches (so the following tag is the first `endraw` — `t` may contain any
block/comment/expression marker lookalikes) and every following input,
the raw construct returns a `Raw` node whose whitespace-split parts
concatenate back to exactly `t`, consuming up to that first `endraw` tag.
In particular `{% raw %}{% if x %}{% endraw %}` yields the `Raw` node with
core text `{% if x %}`, not a parsed `if` construct. -/
theorem c7_raw_first_endraw_verbatim :
    (∀ t rest : List Char,
      (∀ k, k < t.length →
        endrawP defaultSyn (t.drop k ++ (eTagCore ++ (dBlockEnd ++ rest))) = .err) →
      ∃ lws core rws, splitWsParts t = Node.Lit lws core rws ∧ lws ++ (core ++ rws) = t ∧
        Node.rawP defaultSyn (rawHeadInp ++ (t ++ (eTagCore ++ (dBlockEnd ++ rest))))
          = .ok (dBlockEnd ++ rest)
              (Node.Raw (Ws.mk none none) lws core rws (Ws.mk none none))) ∧
    parseTemplate defaultSyn 12 tmplRawIf =
      .ok [] [Node.Raw (Ws.mk none none) [] rawIfCore [] (Ws.mk none none)] := by
  refine ⟨?_, rfl⟩
  intro t rest hH
  obtain ⟨lws, core, rws, hsplit, hcat⟩ := splitWsParts_decomp t
  refine ⟨lws, core, rws, hsplit, hcat, ?_⟩
  -- the endraw recognizer accepts the canonical end tag, for any tail
  have e1 : ptag defaultSyn.blockStart (eTagCore ++ (dBlockEnd ++ rest))
      = .ok (((" endraw ").toList) ++ (dBlockEnd ++ rest)) dBlockStart := rfl
  have e2 : popt whitespaceP (((" endraw ").toList) ++ (dBlockEnd ++ rest))
      = .ok (((" endraw ").toList) ++ (dBlockEnd ++ rest)) none := rfl
  have e3 : wsP (keyword kwEndraw) (((" endraw ").toList) ++ (dBlockEnd ++ rest))
      = .ok (dBlockEnd ++ rest) kwEndraw := rfl
  have e4 : popt whitespaceP (dBlockEnd ++ rest) = .ok (dBlockEnd ++ rest) none := rfl
  have e5 : ppeek (ptag defaultSyn.blockEnd) (dBlockEnd ++ rest)
      = .ok (dBlockEnd ++ rest) dBlockEnd := by
    have hbe : defaultSyn.blockEnd = dBlockEnd := rfl
    unfold ppeek
    rw [hbe, ptag_self_append dBlockEnd rest]
  have hEndrawOk : endrawP defaultSyn (eTagCore ++ (dBlockEnd ++ rest))
      = .ok (dBlockEnd ++ rest) (none, none) := by
    unfold endrawP P.bind
    rw [e1]
    dsimp only
    rw [e2]
    dsimp only
    rw [e3]
    dsimp only
    rw [e4]
    dsimp only
    rw [e5]
    rfl
  -- the scan stops at the first endraw tag
  have hskip : skipTill (endrawP defaultSyn) (t ++ (eTagCore ++ (dBlockEnd ++ rest)))
      = .ok (eTagCore ++ (dBlockEnd ++ rest)) (dBlockEnd ++ rest, (none, none)) :=
    skipTill_first t (eTagCore ++ (dBlockEnd ++ rest)) hH hEndrawOk
  have hcons : pconsumed (skipTill (endrawP defaultSyn)) (t ++ (eTagCore ++ (dBlockEnd ++ rest)))
      = .ok (eTagCore ++ (dBlockEnd ++ rest)) (t, (dBlockEnd ++ rest, (none, none))) := by
    unfold pconsumed
    rw [hskip]
    dsimp only
    have hlen : (t ++ (eTagCore ++ (dBlockEnd ++ rest))).length
        - (eTagCore ++ (dBlockEnd ++ rest)).length = t.length := by
      simp only [List.length_append]
      omega
    rw [hlen, List.take_left]
  -- the raw header, for any tail
  have h1 : popt whitespaceP (rawHeadInp ++ (t ++ (eTagCore ++ (dBlockEnd ++ rest))))
      = .ok (rawHeadInp ++ (t ++ (eTagCore ++ (dBlockEnd ++ rest)))) none := rfl
  have h2 : wsP (keyword kwRaw) (rawHeadInp ++ (t ++ (eTagCore ++ (dBlockEnd ++ rest))))
      = .ok (dBlockEnd ++ (t ++ (eTagCore ++ (dBlockEnd ++ rest)))) kwRaw := rfl
  have h3 : popt whitespaceP (dBlockEnd ++ (t ++ (eTagCore ++ (dBlockEnd ++ rest))))
      = .ok (dBlockEnd ++ (t ++ (eTagCore ++ (dBlockEnd ++ rest)))) none := rfl
  have h4 : ptag defaultSyn.blockEnd (dBlockEnd ++ (t ++ (eTagCore ++ (dBlockEnd ++ rest))))
      = .ok (t ++ (eTagCore ++ (dBlockEnd ++ rest))) dBlockEnd :=
    ptag_self_append dBlockEnd (t ++ (eTagCore ++ (dBlockEnd ++ rest)))
  unfold Node.rawP P.bind pcut
  rw [h1]
  dsimp only
  rw [h2]
  dsimp only
  rw [h3]
  dsimp only
  rw [h4]
  dsimp only
  rw [hcons]
  dsimp only [pjump]
  unfold mkRawNode
  rw [hsplit]
  rfl

/-- C7 witness: instantiating the theorem at the claim's decisive content
`{% if x %}` (a block-marker lookalike) followed by further input `x`: the
raw construct captures it verbatim as the `Raw` core, stopping at the first
`endraw` tag. -/
theorem c7_raw_first_endraw_verbatim_witness :
    ∃ lws core rws, splitWsParts rawIfCore = Node.Lit lws core rws ∧
      lws ++ (core ++ rws) = rawIfCore ∧
      Node.rawP defaultSyn (rawHeadInp ++ (rawIfCore ++ (eTagCore ++ (dBlockEnd ++ (("x").toList)))))
        = .ok (dBlockEnd ++ (("x").toList))
            (Node.Raw (Ws.mk none none) lws core rws (Ws.mk none none)) :=
  c7_raw_first_endraw_verbatim.1 rawIfCore (("x").toList) (by decide)

end Askama
